import Mathlib

/-!
# Verification of `generate_video_sections.py`

A shallow embedding of the repository's single source file
`src/generate_video_sections.py`, together with proofs of the specified
properties of its components: the document splitter `read_existing_html`,
the fragment renderer `generate_video_section_html`, the date formatter
`format_date`, the assembler `generate_html_file`, and the entry point
`main`.

Strings are embedded as `List Char`.  The Python regular expressions used
by the splitter are embedded operationally:

* `re.search(r'(<div class="content">)', content)` is a search for the
  leftmost occurrence of a 21-character literal;
* `re.search(r'(\s*</div>\s*</div>\s*</body>)', content)` is a scan for
  the leftmost start position from which the pattern matches.  Because
  every literal in the pattern begins with `<`, which is not whitespace,
  the backtracking regex semantics collapse to the greedy one embedded
  here: each `\s*` consumes exactly the maximal whitespace run (a shorter
  run would place a whitespace character where a `<` is required).

`\s` is embedded as the six ASCII whitespace characters; the CPython
pattern, compiled from a `str`, additionally accepts some non-ASCII
Unicode whitespace, which is not modelled.  Likewise decimal digits are
modelled as the ASCII digits `'0'`–`'9'`.
-/

set_option maxRecDepth 40000

/-- ASCII whitespace, as matched by `\s` on ASCII text:
space, tab, newline, carriage return, vertical tab, form feed. -/
def isSpace (c : Char) : Bool :=
  c = ' ' || c = '\t' || c = '\n' || c = '\r' || c = '\x0b' || c = '\x0c'

/-- The opening tag of the content container: `<div class="content">`. -/
def openTagL : List Char := "<div class=\"content\">".data

/-- The literal `</div>`. -/
def divP : List Char := "</div>".data

/-- The literal `</body>`. -/
def bodyP : List Char := "</body>".data

/-- Leftmost index `i` such that `f` accepts the suffix starting at `i`
(`re.search` position scanning, and `str.find` when `f` tests a literal
prefix). -/
def searchIdx (f : List Char → Bool) : List Char → Option Nat
  | [] => if f [] then some 0 else none
  | c :: t => if f (c :: t) then some 0 else (searchIdx f t).map (· + 1)

/-- Matcher for the regex `</div>\s*</div>\s*</body>` at the head of `r`. -/
def matchEndB (r : List Char) : Bool :=
  divP.isPrefixOf r &&
    (divP.isPrefixOf ((r.drop 6).dropWhile isSpace) &&
      bodyP.isPrefixOf ((((r.drop 6).dropWhile isSpace).drop 6).dropWhile isSpace))

/-- Matcher for the regex `\s*</div>\s*</div>\s*</body>` at the head of
`r`: the leading `\s*` greedily consumes the whitespace run. -/
def matchFullB (r : List Char) : Bool :=
  matchEndB (r.dropWhile isSpace)

/-- `read_existing_html`, viewed as a function of the file's text.
Strategy 1: search for the opening-tag literal and for the closing
pattern with its leading `\s*`; on success the header is everything up to
and including the opening tag (`content_start_match.end()`), the footer
everything from the start of the closing match.  Strategy 2 (fallback):
`content.find` of the same literal and the closing pattern without the
leading `\s*`.  Strategy 3 (last resort): the whole file is the header
and the footer is empty. -/
def read_existing_html (content : List Char) : List Char × List Char :=
  match searchIdx (openTagL.isPrefixOf ·) content, searchIdx matchFullB content with
  | some p, some e => (content.take (p + openTagL.length), content.drop e)
  | _, _ =>
    match searchIdx (openTagL.isPrefixOf ·) content with
    | some p2 =>
      match searchIdx matchEndB content with
      | some e2 => (content.take (p2 + openTagL.length), content.drop e2)
      | none => (content, [])
    | none => (content, [])

/-- Python `str.replace` for a single-character needle: every occurrence
of `c` is replaced by `r`. -/
def replaceChar (c : Char) (r : List Char) : List Char → List Char
  | [] => []
  | x :: t => (if x = c then r else [x]) ++ replaceChar c r t

/-- The title escaping performed by `generate_video_section_html`:
`.replace('&', '&amp;').replace('<', '&lt;').replace('>', '&gt;')`,
in that order. -/
def escapeTitle (t : List Char) : List Char :=
  replaceChar '>' "&gt;".data (replaceChar '<' "&lt;".data (replaceChar '&' "&amp;".data t))

/-- Specification-side escaping: a single left-to-right pass replacing
each of `&`, `<`, `>` by its entity and leaving every other character
unchanged. -/
def escSpec : List Char → List Char
  | [] => []
  | c :: t =>
    (if c = '&' then "&amp;".data
     else if c = '<' then "&lt;".data
     else if c = '>' then "&gt;".data
     else [c]) ++ escSpec t

/-- ASCII decimal digit. -/
def isDig (c : Char) : Bool := decide (48 ≤ c.toNat ∧ c.toNat ≤ 57)

/-- Numeric value of a digit character. -/
def digVal (c : Char) : Nat := c.toNat - 48

/-- Fuel-driven digit accumulator (structural recursion so that concrete
values reduce inside the kernel; the fuel `n + 1` always suffices). -/
def natReprCore : Nat → Nat → List Char → List Char
  | 0, _, acc => acc
  | fuel + 1, n, acc =>
    if n < 10 then Nat.digitChar n :: acc
    else natReprCore fuel (n / 10) (Nat.digitChar (n % 10) :: acc)

/-- Decimal digits of a natural number, as produced by Python `str(n)`
(no sign, no leading zeros, `"0"` for zero). -/
def natRepr (n : Nat) : List Char := natReprCore (n + 1) n []

/-- Two-digit zero-padded rendering, as produced by `strftime('%d')`. -/
def pad2 (n : Nat) : List Char :=
  if n < 10 then '0' :: [Nat.digitChar n] else natRepr n

/-- Leap year, as in `datetime`: divisible by 4 and (not by 100 or by 400). -/
def isLeap (y : Nat) : Bool :=
  (decide (y % 4 = 0) && !(decide (y % 100 = 0))) || decide (y % 400 = 0)

/-- Days in a month of the proleptic Gregorian calendar used by `datetime`. -/
def daysInMonth (y m : Nat) : Nat :=
  if m = 2 then (if isLeap y then 29 else 28)
  else if m = 4 ∨ m = 6 ∨ m = 9 ∨ m = 11 then 30
  else 31

/-- English month name, as produced by `strftime('%B')` in the C locale. -/
def monthName : Nat → List Char
  | 1 => "January".data
  | 2 => "February".data
  | 3 => "March".data
  | 4 => "April".data
  | 5 => "May".data
  | 6 => "June".data
  | 7 => "July".data
  | 8 => "August".data
  | 9 => "September".data
  | 10 => "October".data
  | 11 => "November".data
  | 12 => "December".data
  | _ => []

/-- `datetime.strptime(s, '%Y%m%d')`, modelled from CPython's `_strptime`:
the compiled pattern is `(\d\d\d\d)` for `%Y`, `(1[0-2]|0[1-9]|[1-9])`
for `%m` and `(3[01]|[12]\d|0[1-9]|[1-9])` for `%d`, the whole string
must be consumed (with eight characters this forces the 4+2+2 split),
and the parsed triple must be a real calendar date with year at least 1,
else `ValueError`. -/
def strptimeYmd (s : List Char) : Option (Nat × Nat × Nat) :=
  match s with
  | [c1, c2, c3, c4, c5, c6, c7, c8] =>
    if isDig c1 && isDig c2 && isDig c3 && isDig c4 &&
        ((c5 = '1' && (c6 = '0' || c6 = '1' || c6 = '2')) ||
         (c5 = '0' && (isDig c6 && c6 ≠ '0'))) &&
        ((c7 = '3' && (c8 = '0' || c8 = '1')) ||
         ((c7 = '1' || c7 = '2') && isDig c8) ||
         (c7 = '0' && (isDig c8 && c8 ≠ '0'))) then
      let y := ((digVal c1 * 10 + digVal c2) * 10 + digVal c3) * 10 + digVal c4
      let m := digVal c5 * 10 + digVal c6
      let d := digVal c7 * 10 + digVal c8
      if 1 ≤ y ∧ d ≤ daysInMonth y m then some (y, m, d) else none
    else none
  | _ => none

/-- `strftime('%B %d, %Y')`: month name, space, two-digit day, comma,
space, year (unpadded decimal, as printed by glibc `%Y`). -/
def strftimeBdY (y m d : Nat) : List Char :=
  monthName m ++ ' ' :: (pad2 d ++ ", ".data ++ natRepr y)

/-- `format_date`: `"Date unknown"` for an empty or non-8-character
input or a `ValueError` from `strptime`, otherwise the formatted date. -/
def format_date (upload_date : List Char) : List Char :=
  if upload_date = [] ∨ upload_date.length ≠ 8 then "Date unknown".data
  else
    match strptimeYmd upload_date with
    | some (y, m, d) => strftimeBdY y m d
    | none => "Date unknown".data

/-- A video record, as built by `fetch_channel_videos`. -/
structure VideoRecord where
  title : List Char
  video_id : List Char
  url : List Char
  upload_date : List Char
  description : List Char
  deriving DecidableEq

/-- The record `fetch_channel_videos` builds from an entry: the `url`
field is derived from the id as `https://youtu.be/<id>`. -/
def mkVideoRecord (title video_id upload_date description : List Char) : VideoRecord :=
  { title := title
    video_id := video_id
    url := "https://youtu.be/".data ++ video_id
    upload_date := upload_date
    description := description }

/-- Template text before the escaped title. -/
def fragT1 : List Char :=
  ("            <!-- Video Section -->\n            <div class=\"video-section\">\n                <h2 class=\"video-title\">").data

/-- Template text between the escaped title and the formatted date. -/
def fragT2 : List Char :=
  ("</h2>\n                <p class=\"video-date\">Published: ").data

/-- Template text between the formatted date and the url. -/
def fragT3 : List Char :=
  ("</p>\n                <a href=\"").data

/-- Template text after the url (the source file contains the mojibake
bytes `â–¶`, i.e. U+00E2 U+2013 U+00B6, which are kept verbatim). -/
def fragT4 : List Char :=
  ("\" class=\"video-link\" target=\"_blank\">\n                    â–¶ Watch on YouTube\n                </a>\n                <div class=\"scripts-grid\">\n                    <!-- Add script files here -->\n                </div>\n            </div>").data

/-- `generate_video_section_html`: the f-string template with the escaped
title, formatted date and url spliced in. -/
def generate_video_section_html (v : VideoRecord) : List Char :=
  fragT1 ++ escapeTitle v.title ++ fragT2 ++ format_date v.upload_date ++
    fragT3 ++ v.url ++ fragT4

/-- Python string comparison `<`: lexicographic by code point, with a
proper prefix smaller than its extension. -/
def lexLt : List Char → List Char → Bool
  | [], [] => false
  | [], _ :: _ => true
  | _ :: _, [] => false
  | a :: s, b :: t => if a < b then true else if a = b then lexLt s t else false

/-- The sort key of `generate_html_file`:
`x['upload_date'] if x['upload_date'] else '00000000'`. -/
def sortKey (v : VideoRecord) : List Char :=
  if v.upload_date = [] then "00000000".data else v.upload_date

/-- Insert into a descending-by-key list: the element goes after every
element with a strictly greater key and before the first element whose
key is not greater (hence before equal keys, which preserves the
original order of the earlier element). -/
def insertDesc (x : VideoRecord) : List VideoRecord → List VideoRecord
  | [] => [x]
  | h :: t => if lexLt (sortKey x) (sortKey h) then h :: insertDesc x t else x :: h :: t

/-- `sorted(videos, key=..., reverse=True)`: the unique permutation that
is descending in the key and keeps the original order of records with
equal keys, which is what CPython's stable sort with `reverse=True`
produces. -/
def sortDesc : List VideoRecord → List VideoRecord
  | [] => []
  | h :: t => insertDesc h (sortDesc t)

/-- `'\n'.join`. -/
def joinNL : List (List Char) → List Char
  | [] => []
  | [x] => x
  | x :: y :: t => x ++ '\n' :: joinNL (y :: t)

/-- The fixed opening of the regenerated content block
(`"        <div class=\"content\">\n"`). -/
def wrapOpen : List Char := ("        <div class=\"content\">\n").data

/-- The fixed closing of the regenerated content block
(`"\n        </div>"`). -/
def wrapClose : List Char := ("\n        </div>").data

/-- The `content_html` string built by `generate_html_file`. -/
def content_html (videos : List VideoRecord) : List Char :=
  wrapOpen ++ joinNL ((sortDesc videos).map generate_video_section_html) ++ wrapClose

/-- The `complete_html` string built by `generate_html_file`:
header, regenerated content block, footer. -/
def complete_html (existing : List Char) (videos : List VideoRecord) : List Char :=
  (read_existing_html existing).1 ++ content_html videos ++ (read_existing_html existing).2

/-- The write effects of one `generate_html_file` call: the text written
to the side text file (if any) and the text written over the original
HTML file (if any).  Console output is not modelled. -/
structure GenEffects where
  textFileWrite : Option (List Char)
  htmlFileWrite : Option (List Char)
  deriving DecidableEq

/-- The file writes `generate_html_file` performs, as a function of the
existing file text: the side file is written iff `output_text_file` is
given, the original file is overwritten iff `dry_run` is false. -/
def generate_html_file_writes (videos : List VideoRecord) (existing : List Char)
    (dry_run : Bool) (output_text_file : Bool) : GenEffects :=
  { textFileWrite := if output_text_file then some (complete_html existing videos) else none
    htmlFileWrite := if dry_run then none else some (complete_html existing videos) }

/-- The write effects of `main`, as a function of the fetched video list
and the existing file text: an empty fetch returns early with no writes;
otherwise `generate_html_file` is called with `dry_run=True` and an
`output_text_file`.  Both paths return normally (the function is total). -/
def main_writes (fetched : List VideoRecord) (existing : List Char) : GenEffects :=
  if fetched = [] then { textFileWrite := none, htmlFileWrite := none }
  else generate_html_file_writes fetched existing true true

-- ### Specification-side predicates

/-- Occurrence of `pat` in `s` at index `q`. -/
def occAt (pat s : List Char) (q : Nat) : Prop := pat <+: s.drop q

/-- Every index in `[a, b)` holds a whitespace character of `s`. -/
def wsI (s : List Char) (a b : Nat) : Prop :=
  ∀ i, a ≤ i → i < b → isSpace (s.getD i 'X') = true

/-- The closing sequence `</div>`, `</div>`, `</body>` separated only by
whitespace, starting at index `j` of `s`. -/
def EndSeqAt (s : List Char) (j : Nat) : Prop :=
  ∃ j2 q, j + 6 ≤ j2 ∧ j2 + 6 ≤ q ∧
    occAt divP s j ∧ occAt divP s j2 ∧ occAt bodyP s q ∧
    wsI s (j + 6) j2 ∧ wsI s (j2 + 6) q

/-- Specification-side validity of an upload-date string: exactly eight
ASCII digits denoting a calendar date `YYYYMMDD` with year at least 1,
month in `1..12` and day within the month. -/
def SpecValidYmd (s : List Char) : Prop :=
  s.length = 8 ∧ (∀ c ∈ s, isDig c = true) ∧
    1 ≤ ((digVal (s.getD 0 'X') * 10 + digVal (s.getD 1 'X')) * 10 +
          digVal (s.getD 2 'X')) * 10 + digVal (s.getD 3 'X') ∧
    1 ≤ digVal (s.getD 4 'X') * 10 + digVal (s.getD 5 'X') ∧
    digVal (s.getD 4 'X') * 10 + digVal (s.getD 5 'X') ≤ 12 ∧
    1 ≤ digVal (s.getD 6 'X') * 10 + digVal (s.getD 7 'X') ∧
    digVal (s.getD 6 'X') * 10 + digVal (s.getD 7 'X') ≤
      daysInMonth
        (((digVal (s.getD 0 'X') * 10 + digVal (s.getD 1 'X')) * 10 +
            digVal (s.getD 2 'X')) * 10 + digVal (s.getD 3 'X'))
        (digVal (s.getD 4 'X') * 10 + digVal (s.getD 5 'X'))

/-- The year denoted by the first four characters. -/
def specY (s : List Char) : Nat :=
  ((digVal (s.getD 0 'X') * 10 + digVal (s.getD 1 'X')) * 10 +
    digVal (s.getD 2 'X')) * 10 + digVal (s.getD 3 'X')

/-- The month denoted by characters 4–5. -/
def specM (s : List Char) : Nat :=
  digVal (s.getD 4 'X') * 10 + digVal (s.getD 5 'X')

/-- The day denoted by characters 6–7. -/
def specD (s : List Char) : Nat :=
  digVal (s.getD 6 'X') * 10 + digVal (s.getD 7 'X')

-- ### Index-level list lemmas

lemma getD_append_lt {a b : List Char} {i : Nat} (h : i < a.length) (d : Char) :
    (a ++ b).getD i d = a.getD i d := by
  simp [List.getD_eq_getElem?_getD, List.getElem?_append, h]

lemma getD_append_ge {a b : List Char} {i : Nat} (h : a.length ≤ i) (d : Char) :
    (a ++ b).getD i d = b.getD (i - a.length) d := by
  simp [List.getD_eq_getElem?_getD, List.getElem?_append, Nat.not_lt.mpr h]

lemma getD_take_lt {l : List Char} {n i : Nat} (h : i < n) (d : Char) :
    (l.take n).getD i d = l.getD i d := by
  simp [List.getD_eq_getElem?_getD, List.getElem?_take, h]

lemma getD_drop_eq (l : List Char) (n i : Nat) (d : Char) :
    (l.drop n).getD i d = l.getD (n + i) d := by
  simp [List.getD_eq_getElem?_getD, List.getElem?_drop]

lemma getD_of_prefix_lt {u v : List Char} (h : u <+: v) {i : Nat} (hi : i < u.length)
    (d : Char) : v.getD i d = u.getD i d := by
  obtain ⟨t, ht⟩ := h
  rw [← ht, getD_append_lt hi]

-- ### Occurrences

lemma occAt_iff_isPrefixOf {pat s : List Char} {q : Nat} :
    occAt pat s q ↔ pat.isPrefixOf (s.drop q) = true :=
  Iff.symm List.isPrefixOf_iff_prefix

instance (pat s : List Char) (q : Nat) : Decidable (occAt pat s q) :=
  decidable_of_iff _ occAt_iff_isPrefixOf.symm

lemma occAt_len {pat s : List Char} {q : Nat} (hp : 0 < pat.length)
    (h : occAt pat s q) : q + pat.length ≤ s.length := by
  obtain ⟨t, ht⟩ := h
  have h1 : (s.drop q).length = pat.length + t.length := by
    rw [← ht]; simp
  have h2 : (s.drop q).length = s.length - q := by simp
  omega

lemma occAt_getD {pat s : List Char} {q : Nat} (h : occAt pat s q) {k : Nat}
    (hk : k < pat.length) (d : Char) : s.getD (q + k) d = pat.getD k d := by
  obtain ⟨t, ht⟩ := h
  rw [← getD_drop_eq, ← ht, getD_append_lt hk]

lemma occAt_head {pat s : List Char} {q : Nat} (h : occAt pat s q)
    (hp : 0 < pat.length) (d : Char) : s.getD q d = pat.getD 0 d := by
  simpa using occAt_getD h hp d

lemma occAt_of_getD {pat s : List Char} {q : Nat} (hlen : q + pat.length ≤ s.length)
    (h : ∀ k, k < pat.length → s.getD (q + k) 'X' = pat.getD k 'X') : occAt pat s q := by
  have hl : pat.length ≤ (s.drop q).length := by simp; omega
  have htake : (s.drop q).take pat.length = pat := by
    apply List.ext_getElem (by simp; omega)
    intro i h1 h2
    have hi : i < pat.length := h2
    have e1 : ((s.drop q).take pat.length).getD i 'X' = s.getD (q + i) 'X' := by
      rw [getD_take_lt hi, getD_drop_eq]
    have e2 : ((s.drop q).take pat.length).getD i 'X' = ((s.drop q).take pat.length)[i] :=
      List.getD_eq_getElem _ _ h1
    have e3 : pat.getD i 'X' = pat[i] := List.getD_eq_getElem _ _ h2
    rw [← e2, e1, h i hi, e3]
  refine ⟨(s.drop q).drop pat.length, ?_⟩
  conv_rhs => rw [← List.take_append_drop pat.length (s.drop q)]
  rw [htake]

lemma occAt_append_right (a : List Char) {pat b : List Char} {r : Nat}
    (h : occAt pat b r) : occAt pat (a ++ b) (a.length + r) := by
  unfold occAt at h ⊢
  rwa [List.drop_append]

lemma occAt_append_left {pat a : List Char} (b : List Char) {q : Nat}
    (h : occAt pat a q) : occAt pat (a ++ b) q := by
  obtain ⟨t, ht⟩ := h
  by_cases hq : q ≤ a.length
  · refine ⟨t ++ b, ?_⟩
    have : (a ++ b).drop q = a.drop q ++ b := by
      conv_lhs => rw [← List.take_append_drop q a, List.append_assoc]
      rw [List.drop_append_of_le_length (by simp [hq]), List.drop_eq_nil_iff.mpr (by simp [hq])]
      simp
    rw [this, ← ht, List.append_assoc]
  · have : a.drop q = [] := List.drop_eq_nil_iff.mpr (by omega)
    rw [this] at ht
    have hpat : pat = [] := by
      have := congrArg List.length ht; simp at this; simp [this]
    simp [occAt, hpat]

lemma occAt_restrict {pat a b : List Char} {q : Nat} (h : occAt pat (a ++ b) q)
    (hq : q + pat.length ≤ a.length) : occAt pat a q := by
  apply occAt_of_getD hq
  intro k hk
  rw [← occAt_getD h hk, getD_append_lt (by omega)]

-- ### Leftmost-search lemmas

lemma searchIdx_some_sound {f : List Char → Bool} {s : List Char} {i : Nat}
    (h : searchIdx f s = some i) :
    f (s.drop i) = true ∧ ∀ m, m < i → f (s.drop m) = false := by
  induction s generalizing i with
  | nil =>
    unfold searchIdx at h
    split at h
    · cases h; constructor
      · simpa using ‹f [] = true›
      · omega
    · cases h
  | cons c t ih =>
    unfold searchIdx at h
    split at h
    · cases h
      exact ⟨by simpa using ‹f (c :: t) = true›, by omega⟩
    · obtain ⟨j, hj, rfl⟩ := Option.map_eq_some'.mp h
      obtain ⟨ih1, ih2⟩ := ih hj
      refine ⟨by simpa [List.drop_succ_cons] using ih1, ?_⟩
      intro m hm
      cases m with
      | zero => simpa using ‹¬ f (c :: t) = true›
      | succ m' => simpa [List.drop_succ_cons] using ih2 m' (by omega)

lemma searchIdx_some_of {f : List Char → Bool} {s : List Char} {i : Nat}
    (hi : i ≤ s.length) (h1 : f (s.drop i) = true)
    (h2 : ∀ m, m < i → f (s.drop m) = false) : searchIdx f s = some i := by
  induction s generalizing i with
  | nil =>
    have : i = 0 := by simpa using hi
    subst this
    unfold searchIdx
    simp_all
  | cons c t ih =>
    cases i with
    | zero =>
      unfold searchIdx
      simp_all
    | succ j =>
      have h0 : f (c :: t) = false := by simpa using h2 0 (by omega)
      unfold searchIdx
      rw [if_neg (by simp [h0])]
      have : searchIdx f t = some j := by
        apply ih (by simpa using hi) (by simpa [List.drop_succ_cons] using h1)
        intro m hm
        simpa [List.drop_succ_cons] using h2 (m + 1) (by omega)
      rw [this]; rfl

lemma searchIdx_none_sound {f : List Char → Bool} {s : List Char}
    (h : searchIdx f s = none) : ∀ i, f (s.drop i) = false := by
  induction s with
  | nil =>
    intro i
    unfold searchIdx at h
    split at h
    · cases h
    · simpa using ‹¬ f [] = true›
  | cons c t ih =>
    intro i
    unfold searchIdx at h
    split at h
    · cases h
    · cases i with
      | zero => simpa using ‹¬ f (c :: t) = true›
      | succ j =>
        simp only [Option.map_eq_none'] at h
        simpa [List.drop_succ_cons] using ih h j

lemma searchIdx_none_of {f : List Char → Bool} {s : List Char}
    (h : ∀ i, f (s.drop i) = false) : searchIdx f s = none := by
  cases hs : searchIdx f s with
  | none => rfl
  | some i =>
    have := (searchIdx_some_sound hs).1
    rw [h i] at this
    cases this

-- ### Whitespace runs

/-- Length of the maximal whitespace run of `s` starting at index `m`. -/
def wsCnt (s : List Char) (m : Nat) : Nat := ((s.drop m).takeWhile isSpace).length

lemma drop_getD_cons {s : List Char} {a : Nat} (h : a < s.length) :
    s.drop a = s.getD a 'X' :: s.drop (a + 1) := by
  rw [List.getD_eq_getElem _ _ h]
  exact List.drop_eq_getElem_cons h

lemma dropWhile_eq_drop_len (p : Char → Bool) (l : List Char) :
    l.dropWhile p = l.drop (l.takeWhile p).length := by
  induction l with
  | nil => rfl
  | cons x t ih =>
    rw [List.dropWhile_cons, List.takeWhile_cons]
    split
    · simpa using ih
    · simp

lemma dropWhile_head_not {p : Char → Bool} {l : List Char} {c : Char} {r : List Char}
    (h : l.dropWhile p = c :: r) : p c = false := by
  induction l with
  | nil => cases h
  | cons x t ih =>
    rw [List.dropWhile_cons] at h
    split at h
    · exact ih h
    · cases h
      simpa using ‹¬ p c = true›

lemma wsDrop (s : List Char) (m : Nat) :
    (s.drop m).dropWhile isSpace = s.drop (m + wsCnt s m) := by
  rw [dropWhile_eq_drop_len, ← List.drop_drop]
  rfl

lemma wsCnt_ws (s : List Char) (m : Nat) : wsI s m (m + wsCnt s m) := by
  intro i h1 h2
  have hpref : (s.drop m).takeWhile isSpace <+: s.drop m := List.takeWhile_prefix _
  have hlt : i - m < ((s.drop m).takeWhile isSpace).length := by
    unfold wsCnt at h2; omega
  have e1 : s.getD i 'X' = (s.drop m).getD (i - m) 'X' := by
    rw [getD_drop_eq]
    congr 1
    omega
  rw [e1, getD_of_prefix_lt hpref hlt]
  have hmem : ((s.drop m).takeWhile isSpace).getD (i - m) 'X' ∈ (s.drop m).takeWhile isSpace := by
    rw [List.getD_eq_getElem _ _ hlt]
    exact List.getElem_mem hlt
  exact List.mem_takeWhile_imp hmem

lemma wsCnt_stop (s : List Char) (m : Nat) :
    s.length ≤ m + wsCnt s m ∨ isSpace (s.getD (m + wsCnt s m) 'X') = false := by
  cases h : s.drop (m + wsCnt s m) with
  | nil => exact Or.inl (List.drop_eq_nil_iff.mp h)
  | cons c r =>
    right
    have hd : (s.drop m).dropWhile isSpace = c :: r := by rw [wsDrop]; exact h
    have hc : isSpace c = false := dropWhile_head_not hd
    have he : s.getD (m + wsCnt s m) 'X' = c := by
      have := getD_drop_eq s (m + wsCnt s m) 0 'X'
      rw [h] at this
      simpa using this.symm
    rwa [he]

lemma wsCnt_eq_run {s : List Char} {k : Nat} : ∀ {a : Nat}, a + k < s.length →
    wsI s a (a + k) → isSpace (s.getD (a + k) 'X') = false → wsCnt s a = k := by
  induction k with
  | zero =>
    intro a hb _ hstop
    unfold wsCnt
    rw [drop_getD_cons (by omega), List.takeWhile_cons, if_neg (by simpa using hstop)]
    rfl
  | succ n ih =>
    intro a hb hws hstop
    have ha : a < s.length := by omega
    have hwsa : isSpace (s.getD a 'X') = true := hws a le_rfl (by omega)
    unfold wsCnt
    rw [drop_getD_cons ha, List.takeWhile_cons, if_pos hwsa]
    have e1 : wsCnt s (a + 1) = n := by
      apply ih (by omega)
      · intro i h1 h2
        exact hws i (by omega) (by omega)
      · have : a + 1 + n = a + (n + 1) := by omega
        rwa [this]
    unfold wsCnt at e1
    simp [e1]

-- ### The matchers recognise exactly the closing sequence

lemma occAt_divP_head {s : List Char} {j : Nat} (h : occAt divP s j) :
    s.getD j 'X' = '<' :=
  occAt_head h (by decide) 'X'

lemma occAt_bodyP_head {s : List Char} {j : Nat} (h : occAt bodyP s j) :
    s.getD j 'X' = '<' :=
  occAt_head h (by decide) 'X'

lemma matchEndB_iff {s : List Char} {j : Nat} :
    matchEndB (s.drop j) = true ↔ EndSeqAt s j := by
  have hd6 : (s.drop j).drop 6 = s.drop (j + 6) := by rw [List.drop_drop]
  have key : ∀ r2, (((s.drop j).drop 6).dropWhile isSpace).drop 6 = r2 →
      (matchEndB (s.drop j) = true ↔
        (divP.isPrefixOf (s.drop j) = true ∧
          divP.isPrefixOf (s.drop (j + 6 + wsCnt s (j + 6))) = true ∧
          bodyP.isPrefixOf (r2.dropWhile isSpace) = true)) := by
    intro r2 hr2
    unfold matchEndB
    rw [hr2, hd6, wsDrop s (j + 6)]
    simp [Bool.and_eq_true]
  have hr2 : (((s.drop j).drop 6).dropWhile isSpace).drop 6 =
      s.drop (j + 6 + wsCnt s (j + 6) + 6) := by
    rw [hd6, wsDrop s (j + 6), List.drop_drop]
  have keyr := key _ hr2
  rw [wsDrop s (j + 6 + wsCnt s (j + 6) + 6)] at keyr
  constructor
  · intro h
    obtain ⟨h1, h2, h3⟩ := keyr.mp h
    refine ⟨j + 6 + wsCnt s (j + 6),
      j + 6 + wsCnt s (j + 6) + 6 + wsCnt s (j + 6 + wsCnt s (j + 6) + 6),
      ?_, ?_, ?_, ?_, ?_, ?_, ?_⟩
    · omega
    · omega
    · exact occAt_iff_isPrefixOf.mpr h1
    · exact occAt_iff_isPrefixOf.mpr h2
    · exact occAt_iff_isPrefixOf.mpr h3
    · exact wsCnt_ws s (j + 6)
    · exact wsCnt_ws s (j + 6 + wsCnt s (j + 6) + 6)
  · rintro ⟨j2, q, hj2, hq, o1, o2, o3, w1, w2⟩
    have hj2len : j2 + 6 ≤ s.length := occAt_len (by decide) o2
    have hqlen : q + 7 ≤ s.length := occAt_len (by decide) o3
    have e1 : wsCnt s (j + 6) = j2 - (j + 6) := by
      have hx : j + 6 + (j2 - (j + 6)) = j2 := by omega
      apply wsCnt_eq_run (by omega)
      · intro i hi1 hi2
        exact w1 i hi1 (by omega)
      · rw [hx, occAt_divP_head o2]
        decide
    have e2 : j + 6 + wsCnt s (j + 6) = j2 := by omega
    rw [e2] at keyr
    have e3 : wsCnt s (j2 + 6) = q - (j2 + 6) := by
      have hx : j2 + 6 + (q - (j2 + 6)) = q := by omega
      apply wsCnt_eq_run (by omega)
      · intro i hi1 hi2
        exact w2 i hi1 (by omega)
      · rw [hx, occAt_bodyP_head o3]
        decide
    have e4 : j2 + 6 + wsCnt s (j2 + 6) = q := by omega
    rw [e4] at keyr
    exact keyr.mpr ⟨occAt_iff_isPrefixOf.mp o1, occAt_iff_isPrefixOf.mp o2,
      occAt_iff_isPrefixOf.mp o3⟩

lemma EndSeqAt_bounds {s : List Char} {j : Nat} (h : EndSeqAt s j) :
    j + 19 ≤ s.length ∧ s.getD j 'X' = '<' := by
  obtain ⟨j2, q, hj2, hq, o1, o2, o3, _, _⟩ := h
  have hql : q + 7 ≤ s.length := occAt_len (by decide) o3
  exact ⟨by omega, occAt_divP_head o1⟩

lemma matchFullB_iff {s : List Char} {i : Nat} :
    matchFullB (s.drop i) = true ↔ ∃ j, i ≤ j ∧ wsI s i j ∧ EndSeqAt s j := by
  unfold matchFullB
  rw [wsDrop]
  constructor
  · intro h
    exact ⟨i + wsCnt s i, by omega, wsCnt_ws s i, matchEndB_iff.mp h⟩
  · rintro ⟨j, hij, hws, hend⟩
    obtain ⟨hlen, hhead⟩ := EndSeqAt_bounds hend
    have e1 : wsCnt s i = j - i := by
      have : i + (j - i) = j := by omega
      apply wsCnt_eq_run (by omega)
      · intro k hk1 hk2
        exact hws k hk1 (by omega)
      · rw [this, hhead]
        decide
    rw [e1, show i + (j - i) = j by omega]
    exact matchEndB_iff.mpr hend

-- ### The primary strategy of the splitter

lemma not_occAt_false {pat s : List Char} {q : Nat} (h : ¬ occAt pat s q) :
    pat.isPrefixOf (s.drop q) = false := by
  rw [occAt_iff_isPrefixOf] at h
  exact Bool.eq_false_iff.mpr h

lemma searchIdx_open_eq {content : List Char} {p : Nat}
    (hp1 : occAt openTagL content p)
    (hp2 : ∀ q, q < p → ¬ occAt openTagL content q) :
    searchIdx (openTagL.isPrefixOf ·) content = some p := by
  apply searchIdx_some_of
  · have := occAt_len (by decide) hp1
    omega
  · exact occAt_iff_isPrefixOf.mp hp1
  · intro m hm
    exact not_occAt_false (hp2 m hm)

lemma take_len_split {content : List Char} {j0 : Nat} {pre w : List Char}
    (hsplit : content.take j0 = pre ++ w) (hj0 : j0 ≤ content.length) :
    pre.length + w.length = j0 := by
  have := congrArg List.length hsplit
  simp at this
  omega

lemma searchIdx_full_eq {content : List Char} {j0 : Nat} {pre w : List Char}
    (hj1 : EndSeqAt content j0) (hj2 : ∀ j, j < j0 → ¬ EndSeqAt content j)
    (hsplit : content.take j0 = pre ++ w)
    (hws : ∀ c ∈ w, isSpace c = true)
    (hpre : pre = [] ∨ isSpace (pre.getD (pre.length - 1) 'X') = false) :
    searchIdx matchFullB content = some pre.length := by
  have hbounds := EndSeqAt_bounds hj1
  have hj0len : j0 ≤ content.length := by omega
  have hpw : pre.length + w.length = j0 := take_len_split hsplit hj0len
  have htrans : ∀ i, i < j0 → content.getD i 'X' = (pre ++ w).getD i 'X' := by
    intro i hi
    rw [← hsplit, getD_take_lt hi]
  apply searchIdx_some_of
  · omega
  · apply matchFullB_iff.mpr
    refine ⟨j0, by omega, ?_, hj1⟩
    intro i h1 h2
    rw [htrans i h2, getD_append_ge h1]
    have hiw : i - pre.length < w.length := by omega
    have : w.getD (i - pre.length) 'X' ∈ w := by
      rw [List.getD_eq_getElem _ _ hiw]
      exact List.getElem_mem hiw
    exact hws _ this
  · intro m hm
    cases hb : matchFullB (content.drop m) with
    | false => rfl
    | true =>
      exfalso
      obtain ⟨j, hmj, hwsI, hend⟩ := matchFullB_iff.mp hb
      have hjge : j0 ≤ j := by
        by_contra hlt
        exact hj2 j (by omega) hend
      have hprene : pre ≠ [] := by
        intro he
        rw [he] at hm
        simp at hm
      have hlast : isSpace (pre.getD (pre.length - 1) 'X') = false := by
        rcases hpre with h | h
        · exact absurd h hprene
        · exact h
      have hsp : isSpace (content.getD (pre.length - 1) 'X') = true := by
        apply hwsI
        · omega
        · omega
      rw [htrans _ (by omega), getD_append_lt (by omega)] at hsp
      rw [hlast] at hsp
      cases hsp

lemma read_primary {content : List Char} {p j0 : Nat} {pre w : List Char}
    (hp1 : occAt openTagL content p)
    (hp2 : ∀ q, q < p → ¬ occAt openTagL content q)
    (hj1 : EndSeqAt content j0) (hj2 : ∀ j, j < j0 → ¬ EndSeqAt content j)
    (hsplit : content.take j0 = pre ++ w)
    (hws : ∀ c ∈ w, isSpace c = true)
    (hpre : pre = [] ∨ isSpace (pre.getD (pre.length - 1) 'X') = false) :
    read_existing_html content =
      (content.take (p + openTagL.length), content.drop pre.length) := by
  unfold read_existing_html
  rw [searchIdx_open_eq hp1 hp2, searchIdx_full_eq hj1 hj2 hsplit hws hpre]

lemma header_eq {content : List Char} {p : Nat} (hp1 : occAt openTagL content p) :
    content.take (p + openTagL.length) = content.take p ++ openTagL := by
  rw [List.take_add]
  congr 1
  obtain ⟨t, ht⟩ := hp1
  rw [← ht]
  exact List.take_left _ _

lemma footer_eq {content : List Char} {j0 : Nat} {pre w : List Char}
    (hsplit : content.take j0 = pre ++ w) :
    content.drop pre.length = w ++ content.drop j0 := by
  conv_lhs => rw [← List.take_append_drop j0 content, hsplit, List.append_assoc]
  exact List.drop_left _ _

-- ### The fallback strategy is redundant

lemma matchFullB_of_matchEndB {r : List Char} (h : matchEndB r = true) :
    matchFullB r = true := by
  have h1 : divP.isPrefixOf r = true := by
    unfold matchEndB at h
    simp only [Bool.and_eq_true] at h
    exact h.1
  obtain ⟨t, ht⟩ := List.isPrefixOf_iff_prefix.mp h1
  unfold matchFullB
  rw [← ht]
  have e : List.dropWhile isSpace (divP ++ t) = divP ++ t := rfl
  rw [e, ht]
  exact h

lemma searchIdx_end_none_iff {content : List Char} :
    searchIdx matchEndB content = none ↔ searchIdx matchFullB content = none := by
  constructor
  · intro h
    apply searchIdx_none_of
    intro i
    cases hb : matchFullB (content.drop i) with
    | false => rfl
    | true =>
      exfalso
      obtain ⟨j, _, _, hend⟩ := matchFullB_iff.mp hb
      have := matchEndB_iff.mpr hend
      rw [searchIdx_none_sound h j] at this
      cases this
  · intro h
    apply searchIdx_none_of
    intro i
    cases hb : matchEndB (content.drop i) with
    | false => rfl
    | true =>
      exfalso
      have := matchFullB_of_matchEndB hb
      rw [searchIdx_none_sound h i] at this
      cases this

/-- The simplified two-case splitter: the primary strategy, else the
last-resort pair; the fallback branch is omitted. -/
def read_existing_html_noFallback (content : List Char) : List Char × List Char :=
  match searchIdx (openTagL.isPrefixOf ·) content, searchIdx matchFullB content with
  | some p, some e => (content.take (p + openTagL.length), content.drop e)
  | _, _ => (content, [])

/-- C9: the splitter's fallback strategy is unreachable: the fallback's
boundary searches (plain substring search for the opening tag, and the
closing pattern without its leading whitespace group) succeed exactly
when the primary strategy's searches succeed, so `read_existing_html`
always returns either the primary-strategy result or the last-resort
pair, and equals the simplified two-case version without the fallback
branch. -/
theorem c9_fallback_unreachable (content : List Char) :
    read_existing_html content = read_existing_html_noFallback content ∧
      (((searchIdx (openTagL.isPrefixOf ·) content).isSome = true ∧
          (searchIdx matchEndB content).isSome = true) ↔
        ((searchIdx (openTagL.isPrefixOf ·) content).isSome = true ∧
          (searchIdx matchFullB content).isSome = true)) := by
  constructor
  · cases ho : searchIdx (openTagL.isPrefixOf ·) content with
    | none =>
      cases hf : searchIdx matchFullB content with
      | none => simp [read_existing_html, read_existing_html_noFallback, ho, hf]
      | some e => simp [read_existing_html, read_existing_html_noFallback, ho, hf]
    | some p =>
      cases hf : searchIdx matchFullB content with
      | none =>
        have hend : searchIdx matchEndB content = none := searchIdx_end_none_iff.mpr hf
        simp [read_existing_html, read_existing_html_noFallback, ho, hf, hend]
      | some e => simp [read_existing_html, read_existing_html_noFallback, ho, hf]
  · apply and_congr_right
    intro _
    rw [Option.isSome_iff_ne_none, Option.isSome_iff_ne_none]
    exact not_congr searchIdx_end_none_iff

-- ### The last-resort strategy

lemma not_occAt_of_all_lt {pat s : List Char} (hp : 0 < pat.length)
    (h : ∀ q, q < s.length → ¬ occAt pat s q) : ∀ q, ¬ occAt pat s q := by
  intro q hq
  have := occAt_len hp hq
  exact h q (by omega) hq

/-- C3: the splitter never raises: whenever the boundary patterns cannot
be found (no occurrence of the opening tag, or no occurrence of the
closing sequence, so that neither the primary nor the fallback strategy
succeeds), `read_existing_html` returns the entire input text as the
header and the empty string as the footer. -/
theorem c3_last_resort (content : List Char)
    (h : (∀ q, ¬ occAt openTagL content q) ∨ (∀ j, ¬ EndSeqAt content j)) :
    read_existing_html content = (content, []) := by
  rcases h with hno | hno
  · have hopen : searchIdx (openTagL.isPrefixOf ·) content = none :=
      searchIdx_none_of (fun i => not_occAt_false (hno i))
    cases hf : searchIdx matchFullB content with
    | none => simp [read_existing_html, hopen, hf]
    | some e => simp [read_existing_html, hopen, hf]
  · have hfull : searchIdx matchFullB content = none := by
      apply searchIdx_none_of
      intro i
      cases hb : matchFullB (content.drop i) with
      | false => rfl
      | true =>
        exfalso
        obtain ⟨j, _, _, hend⟩ := matchFullB_iff.mp hb
        exact hno j hend
    have hend : searchIdx matchEndB content = none := searchIdx_end_none_iff.mpr hfull
    cases ho : searchIdx (openTagL.isPrefixOf ·) content with
    | none => simp [read_existing_html, ho, hfull, hend]
    | some p => simp [read_existing_html, ho, hfull, hend]

/-- Witness for C3 at a document with no boundaries at all. -/
theorem c3_last_resort_witness :
    read_existing_html "<p>hi</p>".data = ("<p>hi</p>".data, []) :=
  c3_last_resort _ (Or.inl (not_occAt_of_all_lt (by decide) (by decide)))

-- ### C1: the primary split boundaries

/-- C1: for every document text containing the opening tag
`<div class="content">` (first occurrence at `p`) and the closing
sequence `</div>`, `</div>`, `</body>` separated only by whitespace
(first occurrence at `j0`, preceded by the maximal whitespace run `w`),
the splitter returns as header the prefix of the text up to and
including the first opening tag, and as footer the text from the
whitespace preceding the first closing sequence to the end. -/
theorem c1_splitter_boundaries (content : List Char) (p j0 : Nat) (pre w : List Char)
    (hp1 : occAt openTagL content p)
    (hp2 : ∀ q, q < p → ¬ occAt openTagL content q)
    (hj1 : EndSeqAt content j0)
    (hj2 : ∀ j, j < j0 → ¬ EndSeqAt content j)
    (hsplit : content.take j0 = pre ++ w)
    (hws : ∀ c ∈ w, isSpace c = true)
    (hpre : pre = [] ∨ isSpace (pre.getD (pre.length - 1) 'X') = false) :
    read_existing_html content = (content.take p ++ openTagL, w ++ content.drop j0) := by
  rw [read_primary hp1 hp2 hj1 hj2 hsplit hws hpre, header_eq hp1, footer_eq hsplit]

/-- Witness for C1 at the document
`A<b><div class="content">...OLD...</div></div></body>`. -/
theorem c1_splitter_boundaries_witness :
    read_existing_html "A<b><div class=\"content\">...OLD...</div></div></body>".data =
      ("A<b><div class=\"content\">".data, "</div></div></body>".data) := by
  have h := c1_splitter_boundaries
    "A<b><div class=\"content\">...OLD...</div></div></body>".data 4 34
    "A<b><div class=\"content\">...OLD...".data [] (by decide) (by decide)
    ⟨40, 46, by omega, by omega, by decide, by decide, by decide,
      by intro i h1 h2; omega, by intro i h1 h2; omega⟩
    (by
      intro j hj hend
      have hall : ∀ j, j < 34 →
          matchEndB ("A<b><div class=\"content\">...OLD...</div></div></body>".data.drop j)
            = false := by decide
      have := matchEndB_iff.mpr hend
      rw [hall j hj] at this
      cases this)
    (by decide) (by simp) (Or.inr (by decide))
  rw [h]
  decide

-- ### Character facts

lemma char_eq_iff_toNat {a b : Char} : a = b ↔ a.toNat = b.toNat :=
  ⟨congrArg Char.toNat, fun h => Char.ext (UInt32.ext h)⟩

lemma charLt_iff_toNat {a b : Char} : a < b ↔ a.toNat < b.toNat := Iff.rfl

instance (s : List Char) : Decidable (SpecValidYmd s) := by
  unfold SpecValidYmd
  infer_instance

lemma isDig_iff {c : Char} : isDig c = true ↔ 48 ≤ c.toNat ∧ c.toNat ≤ 57 := by
  unfold isDig
  exact decide_eq_true_iff

-- ### C4: title escaping

lemma replaceChar_append (c : Char) (r a b : List Char) :
    replaceChar c r (a ++ b) = replaceChar c r a ++ replaceChar c r b := by
  induction a with
  | nil => rfl
  | cons x t ih => simp [replaceChar, ih]

lemma escapeTitle_eq_escSpec : ∀ t, escapeTitle t = escSpec t := by
  intro t
  induction t with
  | nil => rfl
  | cons c t ih =>
    have e1 : replaceChar '&' "&amp;".data (c :: t) =
        (if c = '&' then "&amp;".data else [c]) ++ replaceChar '&' "&amp;".data t := by
      simp [replaceChar]
    show replaceChar '>' "&gt;".data
        (replaceChar '<' "&lt;".data (replaceChar '&' "&amp;".data (c :: t))) = _
    rw [e1, replaceChar_append, replaceChar_append]
    have e2 : replaceChar '>' "&gt;".data
        (replaceChar '<' "&lt;".data (replaceChar '&' "&amp;".data t)) = escSpec t := ih
    rw [e2]
    show replaceChar '>' "&gt;".data
        (replaceChar '<' "&lt;".data (if c = '&' then "&amp;".data else [c])) ++ escSpec t
      = escSpec (c :: t)
    by_cases h1 : c = '&'
    · subst h1; rfl
    · rw [if_neg h1]
      by_cases h2 : c = '<'
      · subst h2; rfl
      · by_cases h3 : c = '>'
        · subst h3; rfl
        · simp [replaceChar, h1, h2, h3, escSpec]

lemma escSpec_mem {t : List Char} {x : Char} (hx : x ∈ escSpec t) :
    x ≠ '<' ∧ x ≠ '>' := by
  induction t with
  | nil => simp [escSpec] at hx
  | cons c t ih =>
    simp only [escSpec, List.mem_append] at hx
    rcases hx with h | h
    · split_ifs at h with h1 h2 h3
      · exact ⟨fun he => absurd (he ▸ h) (by decide), fun he => absurd (he ▸ h) (by decide)⟩
      · exact ⟨fun he => absurd (he ▸ h) (by decide), fun he => absurd (he ▸ h) (by decide)⟩
      · exact ⟨fun he => absurd (he ▸ h) (by decide), fun he => absurd (he ▸ h) (by decide)⟩
      · have hxc : x = c := by simpa using h
        subst hxc
        exact ⟨h2, h3⟩
    · exact ih h

/-- C4: for every video record whose title contains `&`, `<` or `>`, the
rendered fragment carries the title escaped by the chained replacements
`&`-first, then `<`, then `>`, which equal the single-pass escaping
`escSpec` (each offending character becomes its entity, in the title's
original character order, all other characters unchanged), and the
escaped title contains no literal `<` or `>`. -/
theorem c4_title_escaping (v : VideoRecord)
    (_h : '&' ∈ v.title ∨ '<' ∈ v.title ∨ '>' ∈ v.title) :
    generate_video_section_html v =
      fragT1 ++ escSpec v.title ++ fragT2 ++ format_date v.upload_date ++
        fragT3 ++ v.url ++ fragT4 ∧
      '<' ∉ escSpec v.title ∧ '>' ∉ escSpec v.title ∧
      escapeTitle v.title = escSpec v.title := by
  refine ⟨?_, fun hm => (escSpec_mem hm).1 rfl, fun hm => (escSpec_mem hm).2 rfl,
    escapeTitle_eq_escSpec v.title⟩
  unfold generate_video_section_html
  rw [escapeTitle_eq_escSpec]

/-- Witness for C4 at the title `A & B <X>`. -/
theorem c4_title_escaping_witness :
    escapeTitle "A & B <X>".data = escSpec "A & B <X>".data ∧
      escSpec "A & B <X>".data = "A &amp; B &lt;X&gt;".data :=
  ⟨(c4_title_escaping (mkVideoRecord "A & B <X>".data "abc".data [] [])
      (Or.inl (by decide))).2.2.2, by decide⟩

-- ### C5: descending stable sort by upload date

lemma lexLt_asymm : ∀ {a b : List Char}, lexLt a b = true → lexLt b a = false := by
  intro a
  induction a with
  | nil =>
    intro b h
    cases b with
    | nil => cases h
    | cons y t => rfl
  | cons x s ih =>
    intro b h
    cases b with
    | nil => cases h
    | cons y t =>
      unfold lexLt at h ⊢
      by_cases hxy : x < y
      · rw [if_neg (asymm hxy), if_neg (by intro he; subst he; exact absurd hxy (lt_irrefl _))]
      · by_cases hxe : x = y
        · subst hxe
          rw [if_neg hxy, if_pos rfl] at h
          rw [if_neg hxy, if_pos rfl]
          exact ih h
        · rw [if_neg hxy, if_neg hxe] at h
          cases h

lemma lexLt_cons_self (c : Char) (a b : List Char) :
    lexLt (c :: a) (c :: b) = lexLt a b := by
  show (if c < c then true else if c = c then lexLt a b else false) = lexLt a b
  rw [if_neg (lt_irrefl c), if_pos rfl]

lemma lexLt_cons_lt {x y : Char} (h : x < y) (a b : List Char) :
    lexLt (x :: a) (y :: b) = true := by
  show (if x < y then true else if x = y then lexLt a b else false) = true
  rw [if_pos h]

lemma insertDesc_head (x : VideoRecord) (l : List VideoRecord) :
    (insertDesc x l).head? = some x ∨ (insertDesc x l).head? = l.head? := by
  cases l with
  | nil => left; rfl
  | cons h t =>
    unfold insertDesc
    split_ifs
    · right; rfl
    · left; rfl

lemma chain'_insertDesc {x : VideoRecord} {l : List VideoRecord}
    (hch : l.Chain' (fun a b => lexLt (sortKey a) (sortKey b) = false)) :
    (insertDesc x l).Chain' (fun a b => lexLt (sortKey a) (sortKey b) = false) := by
  induction l with
  | nil => simp [insertDesc]
  | cons hd tl ih =>
    unfold insertDesc
    split_ifs with hlt
    · rw [List.chain'_cons']
      refine ⟨?_, ih (List.Chain'.tail hch)⟩
      intro b hb
      rcases insertDesc_head x tl with he | he
      · rw [he] at hb
        have hbx : x = b := by simpa using hb
        subst hbx
        exact lexLt_asymm hlt
      · rw [he] at hb
        exact (List.chain'_cons'.mp hch).1 b hb
    · rw [List.chain'_cons']
      refine ⟨?_, hch⟩
      intro b hb
      have hbh : hd = b := by simpa using hb
      subst hbh
      simpa using hlt

lemma sortDesc_chain' (videos : List VideoRecord) :
    (sortDesc videos).Chain' (fun a b => lexLt (sortKey a) (sortKey b) = false) := by
  induction videos with
  | nil => simp [sortDesc]
  | cons h t ih => exact chain'_insertDesc ih

lemma insertDesc_perm (x : VideoRecord) (l : List VideoRecord) :
    (insertDesc x l).Perm (x :: l) := by
  induction l with
  | nil => exact List.Perm.refl _
  | cons hd tl ih =>
    unfold insertDesc
    split_ifs
    · exact (List.Perm.cons hd ih).trans (List.Perm.swap x hd tl)
    · exact List.Perm.refl _

lemma sortDesc_perm (videos : List VideoRecord) : (sortDesc videos).Perm videos := by
  induction videos with
  | nil => exact List.Perm.refl _
  | cons h t ih => exact (insertDesc_perm h (sortDesc t)).trans (List.Perm.cons h ih)

lemma isDig_cases {c : Char} (hc : isDig c = true) : c = '0' ∨ '0' < c := by
  have h := isDig_iff.mp hc
  by_cases he : c.toNat = 48
  · exact Or.inl (char_eq_iff_toNat.mpr he)
  · right
    rw [charLt_iff_toNat]
    show 48 < c.toNat
    omega

lemma zeros_lexLt {s : List Char} (h : SpecValidYmd s) :
    lexLt "00000000".data s = true := by
  obtain ⟨hlen, hdig, hy, _⟩ := h
  rcases s with _ | ⟨c1, s⟩; · simp at hlen
  rcases s with _ | ⟨c2, s⟩; · simp at hlen
  rcases s with _ | ⟨c3, s⟩; · simp at hlen
  rcases s with _ | ⟨c4, s⟩; · simp at hlen
  rcases s with _ | ⟨c5, s⟩; · simp at hlen
  rcases s with _ | ⟨c6, s⟩; · simp at hlen
  rcases s with _ | ⟨c7, s⟩; · simp at hlen
  rcases s with _ | ⟨c8, s⟩; · simp at hlen
  rcases s with _ | ⟨c9, s⟩
  swap
  · simp at hlen
  have d1 : isDig c1 = true := hdig c1 (by simp)
  have d2 : isDig c2 = true := hdig c2 (by simp)
  have d3 : isDig c3 = true := hdig c3 (by simp)
  have d4 : isDig c4 = true := hdig c4 (by simp)
  simp only [List.getD_cons_zero, List.getD_cons_succ] at hy
  have ez : ("00000000".data : List Char) =
      '0' :: '0' :: '0' :: '0' :: '0' :: '0' :: '0' :: '0' :: [] := rfl
  rw [ez]
  have e0 : digVal '0' = 0 := rfl
  rcases isDig_cases d1 with rfl | hlt
  · rw [lexLt_cons_self]
    rcases isDig_cases d2 with rfl | hlt
    · rw [lexLt_cons_self]
      rcases isDig_cases d3 with rfl | hlt
      · rw [lexLt_cons_self]
        rcases isDig_cases d4 with rfl | hlt
        · rw [e0] at hy
          omega
        · exact lexLt_cons_lt hlt _ _
      · exact lexLt_cons_lt hlt _ _
    · exact lexLt_cons_lt hlt _ _
  · exact lexLt_cons_lt hlt _ _

/-- C5: `generate_html_file` sorts the records descending in the
lexicographic order of the upload-date key before rendering
(`content_html` maps the renderer over `sortDesc` by definition): the
sorted list is a permutation of the input that is pairwise descending in
the key; a record with an empty `upload_date` is keyed `"00000000"`,
which is lexicographically below every valid 8-digit date, so such
records sort last; and the three records with dates `20240301`,
`20230101`, `""` come out in exactly that order. -/
theorem c5_sort_order :
    (∀ videos : List VideoRecord,
        (sortDesc videos).Chain' (fun a b => lexLt (sortKey a) (sortKey b) = false) ∧
        (sortDesc videos).Perm videos) ∧
    (∀ v : VideoRecord, v.upload_date = [] → sortKey v = "00000000".data) ∧
    (∀ s : List Char, SpecValidYmd s → lexLt "00000000".data s = true) ∧
    sortDesc
        [mkVideoRecord "C".data "c".data [] [],
         mkVideoRecord "B".data "b".data "20230101".data [],
         mkVideoRecord "A".data "a".data "20240301".data []] =
      [mkVideoRecord "A".data "a".data "20240301".data [],
       mkVideoRecord "B".data "b".data "20230101".data [],
       mkVideoRecord "C".data "c".data [] []] := by
  refine ⟨fun videos => ⟨sortDesc_chain' videos, sortDesc_perm videos⟩, ?_,
    fun s h => zeros_lexLt h, by decide⟩
  intro v hv
  unfold sortKey
  rw [if_pos hv]

/-- Witness for C5: the empty date is keyed `"00000000"`, which sorts
below the valid date `20230101`. -/
theorem c5_sort_order_witness :
    sortKey (mkVideoRecord "C".data "c".data [] []) = "00000000".data ∧
      lexLt "00000000".data "20230101".data = true :=
  ⟨c5_sort_order.2.1 _ rfl, c5_sort_order.2.2.1 "20230101".data (by decide)⟩

-- ### C6: the date formatter

lemma specValid_cons_iff {c1 c2 c3 c4 c5 c6 c7 c8 : Char} :
    SpecValidYmd [c1, c2, c3, c4, c5, c6, c7, c8] ↔
      (isDig c1 = true ∧ isDig c2 = true ∧ isDig c3 = true ∧ isDig c4 = true ∧
        isDig c5 = true ∧ isDig c6 = true ∧ isDig c7 = true ∧ isDig c8 = true ∧
        1 ≤ ((digVal c1 * 10 + digVal c2) * 10 + digVal c3) * 10 + digVal c4 ∧
        1 ≤ digVal c5 * 10 + digVal c6 ∧ digVal c5 * 10 + digVal c6 ≤ 12 ∧
        1 ≤ digVal c7 * 10 + digVal c8 ∧
        digVal c7 * 10 + digVal c8 ≤
          daysInMonth (((digVal c1 * 10 + digVal c2) * 10 + digVal c3) * 10 + digVal c4)
            (digVal c5 * 10 + digVal c6)) := by
  unfold SpecValidYmd
  simp only [List.length_cons, List.length_nil, List.getD_cons_zero, List.getD_cons_succ,
    List.forall_mem_cons]
  constructor
  · rintro ⟨-, ⟨d1, d2, d3, d4, d5, d6, d7, d8, -⟩, rest⟩
    exact ⟨d1, d2, d3, d4, d5, d6, d7, d8, rest.1, rest.2.1, rest.2.2.1, rest.2.2.2.1,
      rest.2.2.2.2⟩
  · rintro ⟨d1, d2, d3, d4, d5, d6, d7, d8, rest⟩
    exact ⟨trivial, ⟨d1, d2, d3, d4, d5, d6, d7, d8, by intro c hc; simp at hc⟩, rest⟩

lemma daysInMonth_le (y m : Nat) : daysInMonth y m ≤ 31 := by
  unfold daysInMonth
  split_ifs <;> omega

lemma strptimeYmd_char8 (c1 c2 c3 c4 c5 c6 c7 c8 : Char) :
    (SpecValidYmd [c1, c2, c3, c4, c5, c6, c7, c8] →
        strptimeYmd [c1, c2, c3, c4, c5, c6, c7, c8] =
          some (((digVal c1 * 10 + digVal c2) * 10 + digVal c3) * 10 + digVal c4,
                digVal c5 * 10 + digVal c6, digVal c7 * 10 + digVal c8)) ∧
    (¬ SpecValidYmd [c1, c2, c3, c4, c5, c6, c7, c8] →
        strptimeYmd [c1, c2, c3, c4, c5, c6, c7, c8] = none) := by
  have n0 : ('0' : Char).toNat = 48 := rfl
  have n1 : ('1' : Char).toNat = 49 := rfl
  have n2 : ('2' : Char).toNat = 50 := rfl
  have n3 : ('3' : Char).toNat = 51 := rfl
  have hkey : ((isDig c1 && isDig c2 && isDig c3 && isDig c4 &&
        ((c5 = '1' && (c6 = '0' || c6 = '1' || c6 = '2')) ||
         (c5 = '0' && (isDig c6 && c6 ≠ '0'))) &&
        ((c7 = '3' && (c8 = '0' || c8 = '1')) ||
         ((c7 = '1' || c7 = '2') && isDig c8) ||
         (c7 = '0' && (isDig c8 && c8 ≠ '0')))) = true ∧
      1 ≤ ((digVal c1 * 10 + digVal c2) * 10 + digVal c3) * 10 + digVal c4 ∧
      digVal c7 * 10 + digVal c8 ≤
        daysInMonth (((digVal c1 * 10 + digVal c2) * 10 + digVal c3) * 10 + digVal c4)
          (digVal c5 * 10 + digVal c6)) ↔
      SpecValidYmd [c1, c2, c3, c4, c5, c6, c7, c8] := by
    have hdim : daysInMonth
        (((digVal c1 * 10 + digVal c2) * 10 + digVal c3) * 10 + digVal c4)
        (digVal c5 * 10 + digVal c6) ≤ 31 := daysInMonth_le _ _
    simp only [digVal] at hdim
    rw [specValid_cons_iff]
    simp only [Bool.and_eq_true, Bool.or_eq_true, decide_eq_true_eq, ne_eq, isDig,
      char_eq_iff_toNat, n0, n1, n2, n3, digVal]
    constructor
    · intro h
      omega
    · intro h
      omega
  constructor
  · intro hval
    obtain ⟨hC, hy, hd⟩ := hkey.mpr hval
    simp only [strptimeYmd]
    rw [if_pos hC, if_pos ⟨hy, hd⟩]
  · intro hnv
    simp only [strptimeYmd]
    by_cases hC : (isDig c1 && isDig c2 && isDig c3 && isDig c4 &&
        ((c5 = '1' && (c6 = '0' || c6 = '1' || c6 = '2')) ||
         (c5 = '0' && (isDig c6 && c6 ≠ '0'))) &&
        ((c7 = '3' && (c8 = '0' || c8 = '1')) ||
         ((c7 = '1' || c7 = '2') && isDig c8) ||
         (c7 = '0' && (isDig c8 && c8 ≠ '0')))) = true
    · have hnin : ¬ (1 ≤ ((digVal c1 * 10 + digVal c2) * 10 + digVal c3) * 10 + digVal c4 ∧
          digVal c7 * 10 + digVal c8 ≤
            daysInMonth
              (((digVal c1 * 10 + digVal c2) * 10 + digVal c3) * 10 + digVal c4)
              (digVal c5 * 10 + digVal c6)) :=
        fun hin => hnv (hkey.mp ⟨hC, hin.1, hin.2⟩)
      rw [if_pos hC, if_neg hnin]
    · rw [if_neg hC]

/-- C6: `format_date` is a total function (total by construction in this
embedding, mirroring the `try/except` that converts `ValueError` to the
fallback): for every input that is empty, not exactly eight characters,
or not a valid `YYYYMMDD` calendar date, it returns the literal
`"Date unknown"`; for every eight-character string denoting a valid
calendar date it returns the date rendered as `Month DD, YYYY`. -/
theorem c6_format_date_total (s : List Char) :
    (¬ SpecValidYmd s → format_date s = "Date unknown".data) ∧
    (SpecValidYmd s → format_date s = strftimeBdY (specY s) (specM s) (specD s)) := by
  by_cases h8 : s.length = 8
  · rcases s with _ | ⟨c1, s⟩; · simp at h8
    rcases s with _ | ⟨c2, s⟩; · simp at h8
    rcases s with _ | ⟨c3, s⟩; · simp at h8
    rcases s with _ | ⟨c4, s⟩; · simp at h8
    rcases s with _ | ⟨c5, s⟩; · simp at h8
    rcases s with _ | ⟨c6, s⟩; · simp at h8
    rcases s with _ | ⟨c7, s⟩; · simp at h8
    rcases s with _ | ⟨c8, s⟩; · simp at h8
    rcases s with _ | ⟨c9, s⟩
    swap
    · simp at h8
    obtain ⟨himp1, himp2⟩ := strptimeYmd_char8 c1 c2 c3 c4 c5 c6 c7 c8
    constructor
    · intro hnv
      unfold format_date
      rw [if_neg (by simp), himp2 hnv]
    · intro hv
      unfold format_date
      rw [if_neg (by simp), himp1 hv]
      simp only [specY, specM, specD, List.getD_cons_zero, List.getD_cons_succ]
  · constructor
    · intro _
      unfold format_date
      rw [if_pos (Or.inr h8)]
    · intro hv
      exact absurd hv.1 h8

/-- Witness for C6: the valid date `20240101` renders as
`January 01, 2024`; the invalid `20241301` yields the fallback. -/
theorem c6_format_date_total_witness :
    format_date "20240101".data =
      strftimeBdY (specY "20240101".data) (specM "20240101".data) (specD "20240101".data) ∧
    strftimeBdY (specY "20240101".data) (specM "20240101".data) (specD "20240101".data) =
      "January 01, 2024".data ∧
    format_date "20241301".data = "Date unknown".data :=
  ⟨(c6_format_date_total _).2 (by decide), by decide,
    (c6_format_date_total _).1 (by decide)⟩

-- ### C8: the default entry flow never overwrites the original file

/-- C8: under the default entry flow (`main`), the original HTML file is
never overwritten: with zero fetched videos the program returns normally
without writing anything; otherwise `generate_html_file` is invoked with
`dry_run=True` plus a side text file, so the complete assembled document
goes only to the side file and the original file is untouched.  Both
paths are ordinary returns of the (total) model, mirroring the normal
process termination of both outcomes. -/
theorem c8_main_never_overwrites (fetched : List VideoRecord) (existing : List Char) :
    (main_writes fetched existing).htmlFileWrite = none ∧
    (fetched = [] → (main_writes fetched existing).textFileWrite = none) ∧
    (fetched ≠ [] → (main_writes fetched existing).textFileWrite =
      some (complete_html existing fetched)) := by
  unfold main_writes generate_html_file_writes
  by_cases h : fetched = []
  · rw [if_pos h]
    exact ⟨rfl, fun _ => rfl, fun hne => absurd h hne⟩
  · rw [if_neg h]
    exact ⟨rfl, fun he => absurd he h, fun _ => rfl⟩

/-- Witness for C8: an empty fetch writes nothing; a non-empty fetch
leaves the original file unwritten. -/
theorem c8_main_never_overwrites_witness :
    (main_writes [] "x".data).textFileWrite = none ∧
    (main_writes [mkVideoRecord "T".data "i".data [] []] "x".data).htmlFileWrite = none :=
  ⟨(c8_main_never_overwrites [] "x".data).2.1 rfl,
    (c8_main_never_overwrites [mkVideoRecord "T".data "i".data [] []] "x".data).1⟩

-- ### C10: the assembled document holds two opening tags

/-- C10: for every document on which the splitter finds both boundaries,
the assembled document decomposes as preserved header (ending with the
opening tag occurrence at `p`), the regenerated block, and the preserved
footer; it contains the opening tag `<div class="content">` both at `p`
(the end of the header) and at `p + 29` (offset 8 inside the fixed
content wrapper prepended by the assembler, which begins at the header
end `p + 21`), so the regenerated block is nested inside the preserved
opening container tag rather than replacing its contents. -/
theorem c10_two_open_tags (content : List Char) (videos : List VideoRecord)
    (p j0 : Nat) (pre w : List Char)
    (hp1 : occAt openTagL content p)
    (hp2 : ∀ q, q < p → ¬ occAt openTagL content q)
    (hj1 : EndSeqAt content j0)
    (hj2 : ∀ j, j < j0 → ¬ EndSeqAt content j)
    (hsplit : content.take j0 = pre ++ w)
    (hws : ∀ c ∈ w, isSpace c = true)
    (hpre : pre = [] ∨ isSpace (pre.getD (pre.length - 1) 'X') = false) :
    complete_html content videos =
      (content.take p ++ openTagL) ++ content_html videos ++ (w ++ content.drop j0) ∧
    occAt openTagL (complete_html content videos) p ∧
    occAt openTagL (complete_html content videos) (p + 29) := by
  have hplen : p + openTagL.length ≤ content.length := occAt_len (by decide) hp1
  have hread := read_primary hp1 hp2 hj1 hj2 hsplit hws hpre
  have hasm : complete_html content videos =
      (content.take p ++ openTagL) ++ content_html videos ++ (w ++ content.drop j0) := by
    unfold complete_html
    rw [hread, header_eq hp1, footer_eq hsplit]
  refine ⟨hasm, ?_, ?_⟩
  · rw [hasm, List.append_assoc]
    apply occAt_append_left
    have htp : (content.take p).length = p := by
      rw [List.length_take]
      omega
    have hdrop := List.drop_left (content.take p) openTagL
    rw [htp] at hdrop
    unfold occAt
    rw [hdrop]
  · have occ2 : occAt openTagL (content_html videos) 8 := by
      unfold content_html
      apply occAt_append_left
      apply occAt_append_left
      decide
    have htp : (content.take p ++ openTagL).length = p + 21 := by
      rw [List.length_append, List.length_take]
      show min p content.length + 21 = p + 21
      omega
    rw [hasm, List.append_assoc]
    have := occAt_append_right (content.take p ++ openTagL)
      (occAt_append_left (w ++ content.drop j0) occ2)
    rw [htp] at this
    rwa [show p + 21 + 8 = p + 29 by omega] at this

/-- Witness for C10 at a concrete well-formed document and one record. -/
theorem c10_two_open_tags_witness :
    occAt openTagL
      (complete_html "A<b><div class=\"content\">...OLD...</div></div></body>".data
        [mkVideoRecord "T".data "i".data [] []]) 4 ∧
    occAt openTagL
      (complete_html "A<b><div class=\"content\">...OLD...</div></div></body>".data
        [mkVideoRecord "T".data "i".data [] []]) 33 := by
  have h := c10_two_open_tags
    "A<b><div class=\"content\">...OLD...</div></div></body>".data
    [mkVideoRecord "T".data "i".data [] []] 4 34
    "A<b><div class=\"content\">...OLD...".data [] (by decide) (by decide)
    ⟨40, 46, by omega, by omega, by decide, by decide, by decide,
      by intro i h1 h2; omega, by intro i h1 h2; omega⟩
    (by
      intro j hj hend
      have hall : ∀ j, j < 34 →
          matchEndB ("A<b><div class=\"content\">...OLD...</div></div></body>".data.drop j)
            = false := by decide
      have := matchEndB_iff.mpr hend
      rw [hall j hj] at this
      cases this)
    (by decide) (by simp) (Or.inr (by decide))
  exact ⟨h.2.1, h.2.2⟩

-- ### C7: end-to-end for a single record

/-- C7: given exactly one record with title `A & B`, id `abc123` (hence
url `https://youtu.be/abc123`) and upload date `20240101`, and any
existing document whose boundaries the splitter recognizes, the
assembled output is the preserved header, the content wrapper holding
exactly the one rendered fragment, and the preserved footer; the
fragment renders the title as `A &amp; B`, the date as
`January 01, 2024`, and links `https://youtu.be/abc123`. -/
theorem c7_end_to_end (content : List Char) (p j0 : Nat) (pre w : List Char)
    (hp1 : occAt openTagL content p)
    (hp2 : ∀ q, q < p → ¬ occAt openTagL content q)
    (hj1 : EndSeqAt content j0)
    (hj2 : ∀ j, j < j0 → ¬ EndSeqAt content j)
    (hsplit : content.take j0 = pre ++ w)
    (hws : ∀ c ∈ w, isSpace c = true)
    (hpre : pre = [] ∨ isSpace (pre.getD (pre.length - 1) 'X') = false) :
    complete_html content [mkVideoRecord "A & B".data "abc123".data "20240101".data []] =
      (content.take p ++ openTagL) ++
        (wrapOpen ++
          generate_video_section_html
            (mkVideoRecord "A & B".data "abc123".data "20240101".data []) ++
          wrapClose) ++
        (w ++ content.drop j0) ∧
    generate_video_section_html
        (mkVideoRecord "A & B".data "abc123".data "20240101".data []) =
      fragT1 ++ "A &amp; B".data ++ fragT2 ++ "January 01, 2024".data ++
        fragT3 ++ "https://youtu.be/abc123".data ++ fragT4 := by
  constructor
  · unfold complete_html
    rw [read_primary hp1 hp2 hj1 hj2 hsplit hws hpre, header_eq hp1, footer_eq hsplit]
    rfl
  · decide

/-- Witness for C7 at a concrete document with recognizable boundaries. -/
theorem c7_end_to_end_witness :
    complete_html "A<b><div class=\"content\">...OLD...</div></div></body>".data
        [mkVideoRecord "A & B".data "abc123".data "20240101".data []] =
      ("A<b><div class=\"content\">".data) ++
        (wrapOpen ++
          (fragT1 ++ "A &amp; B".data ++ fragT2 ++ "January 01, 2024".data ++
            fragT3 ++ "https://youtu.be/abc123".data ++ fragT4) ++
          wrapClose) ++
        "</div></div></body>".data := by
  have h := c7_end_to_end
    "A<b><div class=\"content\">...OLD...</div></div></body>".data 4 34
    "A<b><div class=\"content\">...OLD...".data [] (by decide) (by decide)
    ⟨40, 46, by omega, by omega, by decide, by decide, by decide,
      by intro i h1 h2; omega, by intro i h1 h2; omega⟩
    (by
      intro j hj hend
      have hall : ∀ j, j < 34 →
          matchEndB ("A<b><div class=\"content\">...OLD...</div></div></body>".data.drop j)
            = false := by decide
      have := matchEndB_iff.mpr hend
      rw [hall j hj] at this
      cases this)
    (by decide) (by simp) (Or.inr (by decide))
  rw [h.1, h.2]
  decide

-- ### Occurrence machinery for the assembled document

lemma occAt_append_ge {pat a b : List Char} {q : Nat} (hocc : occAt pat (a ++ b) q)
    (hq : a.length ≤ q) : occAt pat b (q - a.length) := by
  unfold occAt at hocc ⊢
  rw [show q = a.length + (q - a.length) by omega, List.drop_append] at hocc
  exact hocc

lemma occAt_not_cross {pat s : List Char} {x m : Nat} {c : Char}
    (hgt : s.getD (m - 1) 'X' = c) (hm : 1 ≤ m)
    (hpat : ∀ k, k < pat.length - 1 → pat.getD k 'X' ≠ c)
    (hocc : occAt pat s x) (h1 : x < m) (h2 : m < x + pat.length) : False := by
  have hk : (m - 1) - x < pat.length := by omega
  have he := occAt_getD hocc hk 'X'
  rw [show x + (m - 1 - x) = m - 1 by omega, hgt] at he
  exact hpat _ (by omega) he.symm

lemma occAt_not_at_ws {pat s : List Char} {x : Nat}
    (hws : isSpace (s.getD x 'X') = true) (hpat : pat.getD 0 'X' = '<')
    (hp : 0 < pat.length) (hocc : occAt pat s x) : False := by
  have he := occAt_head hocc hp 'X'
  rw [he, hpat] at hws
  exact absurd hws (by decide)

lemma occAt_not_end_at {pat s : List Char} {x m : Nat}
    (hq : s.getD (m - 2) 'X' = '"') (hm : 2 ≤ m)
    (hpat : pat.getD (pat.length - 2) 'X' ≠ '"') (hplen : 2 ≤ pat.length)
    (hocc : occAt pat s x) (hend : x + pat.length = m) : False := by
  have hk : pat.length - 2 < pat.length := by omega
  have he := occAt_getD hocc hk 'X'
  rw [show x + (pat.length - 2) = m - 2 by omega, hq] at he
  exact hpat he.symm

/-- No occurrence of `pat` anywhere in `s`. -/
def noOcc (pat s : List Char) : Prop := ∀ q, ¬ occAt pat s q

lemma noOcc_of_searchIdx_none {pat s : List Char}
    (h : searchIdx (pat.isPrefixOf ·) s = none) : noOcc pat s := by
  intro q hocc
  have hf := searchIdx_none_sound h q
  rw [occAt_iff_isPrefixOf] at hocc
  rw [hocc] at hf
  cases hf

lemma noOcc_of_no_open {pat s : List Char} (hpat : pat.getD 0 'X' = '<')
    (hp : 0 < pat.length) (hs : '<' ∉ s) : noOcc pat s := by
  intro q hocc
  have h1 := occAt_head hocc hp 'X'
  have hqlen : q + pat.length ≤ s.length := occAt_len hp hocc
  have hq : q < s.length := by omega
  have hmem : s.getD q 'X' ∈ s := by
    rw [List.getD_eq_getElem _ _ hq]
    exact List.getElem_mem hq
  rw [h1, hpat] at hmem
  exact hs hmem

lemma noOcc_append_SL {pat a b : List Char}
    (ha : noOcc pat a) (hb : noOcc pat b)
    (hc : ∀ k, k < pat.length - 1 → pat.getD k 'X' ≠ a.getD (a.length - 1) 'X') :
    noOcc pat (a ++ b) := by
  intro q hocc
  by_cases h1 : q + pat.length ≤ a.length
  · exact ha q (occAt_restrict hocc h1)
  · by_cases h2 : a.length ≤ q
    · exact hb (q - a.length) (occAt_append_ge hocc h2)
    · have hx1 : q < a.length := by omega
      have hx2 : a.length < q + pat.length := by omega
      have hk : (a.length - 1) - q < pat.length := by omega
      have he := occAt_getD hocc hk 'X'
      rw [show q + (a.length - 1 - q) = a.length - 1 by omega,
        getD_append_lt (by omega)] at he
      exact hc _ (by omega) he.symm

lemma noOcc_append_SR {pat a b : List Char}
    (ha : noOcc pat a) (hb : noOcc pat b)
    (hc : ∀ k, k < pat.length - 1 → pat.getD (k + 1) 'X' ≠ b.getD 0 'X') :
    noOcc pat (a ++ b) := by
  intro q hocc
  by_cases h1 : q + pat.length ≤ a.length
  · exact ha q (occAt_restrict hocc h1)
  · by_cases h2 : a.length ≤ q
    · exact hb (q - a.length) (occAt_append_ge hocc h2)
    · have hx1 : q < a.length := by omega
      have hx2 : a.length < q + pat.length := by omega
      have hk : a.length - q < pat.length := by omega
      have he := occAt_getD hocc hk 'X'
      rw [show q + (a.length - q) = a.length by omega,
        getD_append_ge le_rfl] at he
      rw [Nat.sub_self] at he
      exact hc (a.length - q - 1) (by omega)
        (by rw [show a.length - q - 1 + 1 = a.length - q by omega]; exact he.symm)

lemma noOcc_cons {pat : List Char} {c : Char} {l : List Char}
    (hc : pat.getD 0 'X' ≠ c) (hp : 0 < pat.length) (hl : noOcc pat l) :
    noOcc pat (c :: l) := by
  intro q hocc
  cases q with
  | zero =>
    have := occAt_head hocc hp 'X'
    simp only [List.getD_cons_zero] at this
    exact hc (this ▸ rfl)
  | succ q' =>
    unfold occAt at hocc
    rw [List.drop_succ_cons] at hocc
    exact hl q' hocc

-- ### No `</body>` inside the regenerated block

lemma digitChar_mem_digits {k : Nat} (h : k < 10) :
    Nat.digitChar k ∈ "0123456789".data := by
  have hall : ∀ k, k < 10 → Nat.digitChar k ∈ "0123456789".data := by decide
  exact hall k h

lemma natReprCore_subset : ∀ (fuel n : Nat) (acc : List Char),
    (∀ c ∈ acc, c ∈ "0123456789".data) →
    ∀ c ∈ natReprCore fuel n acc, c ∈ "0123456789".data := by
  intro fuel
  induction fuel with
  | zero => intro n acc hacc c hc; exact hacc c hc
  | succ f ih =>
    intro n acc hacc c hc
    unfold natReprCore at hc
    split at hc
    · rcases List.mem_cons.mp hc with rfl | hmem
      · exact digitChar_mem_digits (by omega)
      · exact hacc _ hmem
    · refine ih _ _ ?_ c hc
      intro c' hc'
      rcases List.mem_cons.mp hc' with rfl | hmem
      · exact digitChar_mem_digits (Nat.mod_lt _ (by omega))
      · exact hacc _ hmem

lemma natRepr_no_lt (n : Nat) : '<' ∉ natRepr n := by
  intro h
  have := natReprCore_subset (n + 1) n [] (by simp) '<' h
  exact absurd this (by decide)

lemma pad2_no_lt (n : Nat) : '<' ∉ pad2 n := by
  intro h
  unfold pad2 at h
  split at h
  · rcases List.mem_cons.mp h with h' | h'
    · cases h'
    · rcases List.mem_cons.mp h' with h'' | h''
      · have := digitChar_mem_digits (show n < 10 by omega)
        rw [← h''] at this
        exact absurd this (by decide)
      · cases h''
  · exact natRepr_no_lt n h

lemma monthName_no_lt (m : Nat) : '<' ∉ monthName m := by
  unfold monthName
  split <;> decide

lemma format_date_no_lt (s : List Char) : '<' ∉ format_date s := by
  unfold format_date
  split
  · decide
  · cases hs : strptimeYmd s with
    | none => decide
    | some ymd =>
      obtain ⟨y, m, d⟩ := ymd
      intro h
      unfold strftimeBdY at h
      rcases List.mem_append.mp h with h | h
      · exact monthName_no_lt m h
      · rcases List.mem_cons.mp h with h | h
        · cases h
        · rcases List.mem_append.mp h with h | h
          · rcases List.mem_append.mp h with h | h
            · exact pad2_no_lt d h
            · exact absurd h (by decide)
          · exact natRepr_no_lt y h

lemma getD_last_append {a b : List Char} (hb : b ≠ []) :
    (a ++ b).getD ((a ++ b).length - 1) 'X' = b.getD (b.length - 1) 'X' := by
  have hbl : 0 < b.length := List.length_pos.mpr hb
  rw [List.length_append, getD_append_ge (by omega)]
  congr 1
  omega

lemma noOcc_bodyP_frag {v : VideoRecord} (hv : '<' ∉ v.url) :
    noOcc bodyP (generate_video_section_html v) := by
  unfold generate_video_section_html
  have hT1 : noOcc bodyP fragT1 := noOcc_of_searchIdx_none (by decide)
  have hT2 : noOcc bodyP fragT2 := noOcc_of_searchIdx_none (by decide)
  have hT3 : noOcc bodyP fragT3 := noOcc_of_searchIdx_none (by decide)
  have hT4 : noOcc bodyP fragT4 := noOcc_of_searchIdx_none (by decide)
  have htitle : noOcc bodyP (escapeTitle v.title) := by
    rw [escapeTitle_eq_escSpec]
    exact noOcc_of_no_open (by decide) (by decide)
      (fun hm => (escSpec_mem hm).1 rfl)
  have hdate : noOcc bodyP (format_date v.upload_date) :=
    noOcc_of_no_open (by decide) (by decide) (format_date_no_lt _)
  have hurl : noOcc bodyP v.url := noOcc_of_no_open (by decide) (by decide) hv
  -- fragment structure (left associated):
  -- ((((((fragT1 ++ title) ++ fragT2) ++ date) ++ fragT3) ++ url) ++ fragT4)
  have hE : noOcc bodyP (fragT1 ++ escapeTitle v.title) := by
    apply noOcc_append_SL hT1 htitle
    have hA : fragT1.getD (fragT1.length - 1) 'X' = '>' := by decide
    simp only [hA]
    decide
  have hD : noOcc bodyP (fragT1 ++ escapeTitle v.title ++ fragT2) := by
    apply noOcc_append_SR hE hT2
    have hB : fragT2.getD 0 'X' = '<' := by decide
    simp only [hB]
    decide
  have hC : noOcc bodyP (fragT1 ++ escapeTitle v.title ++ fragT2 ++
      format_date v.upload_date) := by
    apply noOcc_append_SL hD hdate
    have hA : (fragT1 ++ escapeTitle v.title ++ fragT2).getD
        ((fragT1 ++ escapeTitle v.title ++ fragT2).length - 1) 'X' = ' ' := by
      rw [getD_last_append (by decide)]
      decide
    simp only [hA]
    decide
  have hBp : noOcc bodyP (fragT1 ++ escapeTitle v.title ++ fragT2 ++
      format_date v.upload_date ++ fragT3) := by
    apply noOcc_append_SR hC hT3
    have hB : fragT3.getD 0 'X' = '<' := by decide
    simp only [hB]
    decide
  have hAp : noOcc bodyP (fragT1 ++ escapeTitle v.title ++ fragT2 ++
      format_date v.upload_date ++ fragT3 ++ v.url) := by
    apply noOcc_append_SL hBp hurl
    have hA : (fragT1 ++ escapeTitle v.title ++ fragT2 ++
        format_date v.upload_date ++ fragT3).getD
        ((fragT1 ++ escapeTitle v.title ++ fragT2 ++
          format_date v.upload_date ++ fragT3).length - 1) 'X' = '"' := by
      rw [getD_last_append (by decide)]
      decide
    simp only [hA]
    decide
  apply noOcc_append_SR hAp hT4
  have hB : fragT4.getD 0 'X' = '"' := by decide
  simp only [hB]
  decide

lemma noOcc_nil {pat : List Char} (hp : 0 < pat.length) : noOcc pat [] := by
  intro q hocc
  have := occAt_len hp hocc
  simp only [List.length_nil] at this
  omega

lemma noOcc_bodyP_joinNL : ∀ {fs : List (List Char)},
    (∀ f ∈ fs, noOcc bodyP f) → noOcc bodyP (joinNL fs) := by
  intro fs
  induction fs with
  | nil => intro _; exact noOcc_nil (by decide)
  | cons f fs ih =>
    intro hall
    cases fs with
    | nil => simpa [joinNL] using hall f (by simp)
    | cons g gs =>
      have hrest : noOcc bodyP (joinNL (g :: gs)) :=
        ih (fun x hx => hall x (by simp [hx]))
      have hcons : noOcc bodyP ('\n' :: joinNL (g :: gs)) :=
        noOcc_cons (by decide) (by decide) hrest
      show noOcc bodyP (f ++ '\n' :: joinNL (g :: gs))
      apply noOcc_append_SR (hall f (by simp)) hcons
      simp only [List.getD_cons_zero]
      decide

lemma noOcc_bodyP_contentHtml {videos : List VideoRecord}
    (hurl : ∀ v ∈ videos, '<' ∉ v.url) : noOcc bodyP (content_html videos) := by
  unfold content_html
  have hwo : noOcc bodyP wrapOpen := noOcc_of_searchIdx_none (by decide)
  have hwc : noOcc bodyP wrapClose := noOcc_of_searchIdx_none (by decide)
  have hJ : noOcc bodyP (joinNL ((sortDesc videos).map generate_video_section_html)) := by
    apply noOcc_bodyP_joinNL
    intro f hf
    obtain ⟨v, hvmem, rfl⟩ := List.mem_map.mp hf
    have : v ∈ videos := (sortDesc_perm videos).mem_iff.mp hvmem
    exact noOcc_bodyP_frag (hurl v this)
  have hWJ : noOcc bodyP (wrapOpen ++ joinNL ((sortDesc videos).map generate_video_section_html)) := by
    apply noOcc_append_SL hwo hJ
    have hA : wrapOpen.getD (wrapOpen.length - 1) 'X' = '\n' := by decide
    simp only [hA]
    decide
  apply noOcc_append_SR hWJ hwc
  have hB : wrapClose.getD 0 'X' = '\n' := by decide
  simp only [hB]
  decide

-- ### Splitting the assembled document

lemma dropWhile_append_ws {w l : List Char} (hw : ∀ c ∈ w, isSpace c = true) :
    (w ++ l).dropWhile isSpace = l.dropWhile isSpace := by
  induction w with
  | nil => rfl
  | cons c t ih =>
    rw [List.cons_append, List.dropWhile_cons, if_pos (hw c (by simp))]
    exact ih (fun c' hc' => hw c' (by simp [hc']))

lemma read_assembled_eq {content : List Char} {videos : List VideoRecord}
    {p j0 : Nat} {pre w : List Char}
    (hp1 : occAt openTagL content p)
    (hp2 : ∀ q, q < p → ¬ occAt openTagL content q)
    (hj1 : EndSeqAt content j0)
    (hmin : ∀ j, j < j0 → ¬ EndSeqAt content j)
    (hsplit : content.take j0 = pre ++ w)
    (hws : ∀ c ∈ w, isSpace c = true)
    (hpre : pre = [] ∨ isSpace (pre.getD (pre.length - 1) 'X') = false)
    (horder : p + openTagL.length ≤ pre.length)
    (hurl : ∀ v ∈ videos, '<' ∉ v.url) :
    read_existing_html (complete_html content videos) = read_existing_html content := by
  have hot : openTagL.length = 21 := rfl
  have hd6 : divP.length = 6 := rfl
  have hb7 : bodyP.length = 7 := rfl
  rw [hot] at horder
  have hplen : p + 21 ≤ content.length := by
    have := occAt_len (by decide) hp1
    omega
  have hbnds := EndSeqAt_bounds hj1
  have hj0len : j0 ≤ content.length := by omega
  have hpw : pre.length + w.length = j0 := take_len_split hsplit hj0len
  have hread := read_primary hp1 hp2 hj1 hmin hsplit hws hpre
  rw [hot] at hread
  have hj1' := hj1
  obtain ⟨j2c, qc, hj2c, hqc, o1c, o2c, o3c, w1c, w2c⟩ := hj1'
  have ho2clen := occAt_len (by decide) o2c
  have ho3clen := occAt_len (by decide) o3c
  have hHlen : (content.take (p + 21)).length = p + 21 := by
    rw [List.length_take]
    omega
  have hLW : 45 ≤ (content_html videos).length := by
    unfold content_html
    rw [List.length_append, List.length_append]
    have h1 : wrapOpen.length = 30 := rfl
    have h2 : wrapClose.length = 15 := rfl
    omega
  set s : List Char :=
    content.take (p + 21) ++ content_html videos ++ (w ++ content.drop j0) with hs
  set L : Nat := p + 21 + (content_html videos).length with hL
  set K : Nat := L + w.length with hK
  have hasm : complete_html content videos = s := by
    rw [hs]
    unfold complete_html
    rw [hread, footer_eq hsplit]
  have hsl : s.length = L + w.length + (content.length - j0) := by
    rw [hs, List.length_append, List.length_append, List.length_append, hHlen,
      List.length_drop, hL]
    omega
  have htr : ∀ i, i < p + 21 → s.getD i 'X' = content.getD i 'X' := by
    intro i hi
    rw [hs, List.append_assoc, getD_append_lt (by rw [hHlen]; omega)]
    exact getD_take_lt hi 'X'
  have htag : ∀ k, k < 21 → s.getD (p + k) 'X' = openTagL.getD k 'X' := by
    intro k hk
    rw [htr (p + k) (by omega)]
    exact occAt_getD hp1 (show k < openTagL.length by rw [hot]; omega) 'X'
  have hgt1 : s.getD (p + 20) 'X' = '>' := by
    rw [htag 20 (by omega)]
    rfl
  have hquo : s.getD (p + 19) 'X' = '"' := by
    rw [htag 19 (by omega)]
    rfl
  have hsW : ∀ r, r < (content_html videos).length →
      s.getD (p + 21 + r) 'X' = (content_html videos).getD r 'X' := by
    intro r hr
    rw [hs, List.append_assoc, getD_append_ge (by rw [hHlen]; omega), hHlen,
      show p + 21 + r - (p + 21) = r by omega, getD_append_lt hr]
  have hgtL : s.getD (L - 1) 'X' = '>' := by
    have hWlast : (content_html videos).getD ((content_html videos).length - 1) 'X'
        = '>' := by
      unfold content_html
      rw [getD_last_append (by decide)]
      rfl
    rw [show L - 1 = p + 21 + ((content_html videos).length - 1) by omega,
      hsW _ (by omega)]
    exact hWlast
  have hKt : ∀ t, s.getD (K + t) 'X' = content.getD (j0 + t) 'X' := by
    intro t
    rw [hs, getD_append_ge (by rw [List.length_append, hHlen]; omega),
      List.length_append, hHlen, ← hL,
      show K + t - L = w.length + t by omega,
      getD_append_ge (by omega),
      show w.length + t - w.length = t by omega,
      getD_drop_eq]
  have hLt : ∀ r, r < w.length → s.getD (L + r) 'X' = w.getD r 'X' := by
    intro r hr
    rw [hs, getD_append_ge (by rw [List.length_append, hHlen]; omega),
      List.length_append, hHlen, ← hL,
      show L + r - L = r by omega,
      getD_append_lt hr]
  have hwsKa : wsI s L K := by
    intro i h1 h2
    rw [show i = L + (i - L) by omega, hLt (i - L) (by omega)]
    have hmem : w.getD (i - L) 'X' ∈ w := by
      have hwl : i - L < w.length := by omega
      rw [List.getD_eq_getElem _ _ hwl]
      exact List.getElem_mem hwl
    exact hws _ hmem
  have hnoW := noOcc_bodyP_contentHtml hurl
  have hnoB : ∀ q, p + 21 ≤ q → q < L → ¬ occAt bodyP s q := by
    intro q hq1 hq2 hocc
    by_cases h7 : q + 7 ≤ L
    · rw [hs] at hocc
      have h1 := occAt_restrict hocc
        (by rw [List.length_append, hHlen, hb7, ← hL]; omega)
      have h2 := occAt_append_ge h1 (by rw [hHlen]; omega)
      rw [hHlen] at h2
      exact hnoW _ h2
    · exact occAt_not_cross hgtL (by omega) (by decide) hocc (by omega) (by omega)
  have hK0 : s.getD K 'X' = '<' := by
    have h := hKt 0
    rw [Nat.add_zero, Nat.add_zero] at h
    rw [h]
    exact occAt_divP_head o1c
  have hK2 : s.getD (K + 2) 'X' = 'd' := by
    rw [hKt 2]
    have := occAt_getD o1c (show 2 < divP.length by decide) 'X'
    rw [this]
    rfl
  set D2 : Nat := K + (j2c - j0) with hD2def
  have hD2 : s.getD D2 'X' = '<' := by
    rw [hD2def, hKt, show j0 + (j2c - j0) = j2c by omega]
    exact occAt_divP_head o2c
  have hD2d : s.getD (D2 + 2) 'X' = 'd' := by
    rw [show D2 + 2 = K + (j2c - j0 + 2) by omega, hKt,
      show j0 + (j2c - j0 + 2) = j2c + 2 by omega]
    have := occAt_getD o2c (show 2 < divP.length by decide) 'X'
    rw [this]
    rfl
  have hwsF2 : wsI s (K + 6) D2 := by
    intro i h1 h2
    rw [show i = K + (i - K) by omega, hKt]
    exact w1c (j0 + (i - K)) (by omega) (by omega)
  have hNoEnd : ∀ j, j < L → ¬ EndSeqAt s j := by
    intro j hjL hend
    obtain ⟨j2, q, hjj2, hjq, o1, o2, o3, w1, w2⟩ := hend
    by_cases hjH : j < p + 21
    · -- the match would start inside the preserved header
      have hc1 : j + 6 ≤ p + 21 := by
        by_contra hcon
        exact occAt_not_cross
          (show s.getD (p + 21 - 1) 'X' = '>' by
            rw [show p + 21 - 1 = p + 20 by omega]; exact hgt1)
          (by omega) (by decide) o1 hjH (by omega)
      have hne1 : j + 6 ≠ p + 21 := by
        intro he
        exact occAt_not_end_at
          (show s.getD (p + 21 - 2) 'X' = '"' by
            rw [show p + 21 - 2 = p + 19 by omega]; exact hquo)
          (by omega) (by decide) (by decide) o1 (by omega)
      have hj2lt : j2 < p + 21 := by
        by_contra hcon
        have hsp := w1 (p + 20) (by omega) (by omega)
        rw [hgt1] at hsp
        exact absurd hsp (by decide)
      have hc2 : j2 + 6 ≤ p + 21 := by
        by_contra hcon
        exact occAt_not_cross
          (show s.getD (p + 21 - 1) 'X' = '>' by
            rw [show p + 21 - 1 = p + 20 by omega]; exact hgt1)
          (by omega) (by decide) o2 hj2lt (by omega)
      have hne2 : j2 + 6 ≠ p + 21 := by
        intro he
        exact occAt_not_end_at
          (show s.getD (p + 21 - 2) 'X' = '"' by
            rw [show p + 21 - 2 = p + 19 by omega]; exact hquo)
          (by omega) (by decide) (by decide) o2 (by omega)
      have hqlt : q < p + 21 := by
        by_contra hcon
        have hsp := w2 (p + 20) (by omega) (by omega)
        rw [hgt1] at hsp
        exact absurd hsp (by decide)
      have hc3 : q + 7 ≤ p + 21 := by
        by_contra hcon
        exact occAt_not_cross
          (show s.getD (p + 21 - 1) 'X' = '>' by
            rw [show p + 21 - 1 = p + 20 by omega]; exact hgt1)
          (by omega) (by decide) o3 hqlt (by omega)
      have htrocc : ∀ {pat : List Char} {x : Nat}, occAt pat s x →
          x + pat.length ≤ p + 21 → occAt pat content x := by
        intro pat x hocc hx
        rw [hs] at hocc
        have h1 := occAt_restrict hocc
          (by rw [List.length_append, hHlen, ← hL]; omega)
        have h2 := occAt_restrict h1 (by rw [hHlen]; omega)
        have h3 := occAt_append_left (content.drop (p + 21)) h2
        rwa [List.take_append_drop] at h3
      have hwtr : ∀ {a b : Nat}, b ≤ p + 21 → wsI s a b → wsI content a b := by
        intro a b hb hw i h1 h2
        rw [← htr i (by omega)]
        exact hw i h1 h2
      have hendc : EndSeqAt content j :=
        ⟨j2, q, hjj2, hjq, htrocc o1 (by omega), htrocc o2 (by omega),
          htrocc o3 (by omega), hwtr (by omega) w1, hwtr (by omega) w2⟩
      exact hmin j (by omega) hendc
    · -- the match would start inside the regenerated block
      push_neg at hjH
      have hc1 : j + 6 ≤ L := by
        by_contra hcon
        exact occAt_not_cross hgtL (by omega) (by decide) o1 (by omega) (by omega)
      by_cases hj2L : j2 + 6 ≤ L
      · by_cases hqL : q + 7 ≤ L
        · exact hnoB q (by omega) (by omega) o3
        · by_cases hqge : L ≤ q
          · have hj26 : j2 + 6 = L := by
              by_contra hne
              have hsp := w2 (L - 1) (by omega) (by omega)
              rw [hgtL] at hsp
              exact absurd hsp (by decide)
            have hqK : q ≤ K := by
              by_contra hcon
              have hsp := w2 K (by omega) (by omega)
              rw [hK0] at hsp
              exact absurd hsp (by decide)
            have hqK2 : q = K := by
              by_contra hne
              exact occAt_not_at_ws (hwsKa q (by omega) (by omega))
                (by decide) (by decide) o3
            subst hqK2
            have hmm := occAt_getD o3 (show 2 < bodyP.length by decide) 'X'
            rw [hK2] at hmm
            exact absurd hmm.symm (by decide)
          · exact occAt_not_cross hgtL (by omega) (by decide) o3 (by omega) (by omega)
      · by_cases hj2ge : L ≤ j2
        · have hj6 : j + 6 = L := by
            by_contra hne
            have hsp := w1 (L - 1) (by omega) (by omega)
            rw [hgtL] at hsp
            exact absurd hsp (by decide)
          have hj2K : j2 ≤ K := by
            by_contra hcon
            have hsp := w1 K (by omega) (by omega)
            rw [hK0] at hsp
            exact absurd hsp (by decide)
          have hj2K2 : j2 = K := by
            by_contra hne
            exact occAt_not_at_ws (hwsKa j2 (by omega) (by omega))
              (by decide) (by decide) o2
          subst hj2K2
          have hqD : q ≤ D2 := by
            by_contra hcon
            have hsp := w2 D2 (by omega) (by omega)
            rw [hD2] at hsp
            exact absurd hsp (by decide)
          have hqD2 : q = D2 := by
            by_contra hne
            exact occAt_not_at_ws (hwsF2 q (by omega) (by omega))
              (by decide) (by decide) o3
          subst hqD2
          have hmm := occAt_getD o3 (show 2 < bodyP.length by decide) 'X'
          rw [hD2d] at hmm
          exact absurd hmm.symm (by decide)
        · exact occAt_not_cross hgtL (by omega) (by decide) o2 (by omega) (by omega)
  have hdropK : s.drop L = w ++ content.drop j0 := by
    have hlen2 : (content.take (p + 21) ++ content_html videos).length = L := by
      rw [List.length_append, hHlen, hL]
    have hd := List.drop_left (content.take (p + 21) ++ content_html videos)
      (w ++ content.drop j0)
    rw [hlen2] at hd
    rw [hs]
    exact hd
  have hSfull : searchIdx matchFullB s = some L := by
    apply searchIdx_some_of
    · omega
    · rw [hdropK]
      unfold matchFullB
      rw [dropWhile_append_ws hws]
      have hdw2 : (content.drop j0).dropWhile isSpace = content.drop j0 := by
        cases hcd : content.drop j0 with
        | nil => rfl
        | cons c r =>
          rw [List.dropWhile_cons, if_neg]
          have hgd := getD_drop_eq content j0 0 'X'
          rw [hcd] at hgd
          simp only [List.getD_cons_zero, Nat.add_zero] at hgd
          have hc : c = '<' := by
            rw [hgd]
            exact occAt_divP_head o1c
          rw [hc]
          decide
      rw [hdw2]
      exact matchEndB_iff.mpr hj1
    · intro m hm
      cases hb : matchFullB (s.drop m) with
      | false => rfl
      | true =>
        exfalso
        obtain ⟨j, hmj, hwsm, hend⟩ := matchFullB_iff.mp hb
        by_cases hjL2 : j < L
        · exact hNoEnd j hjL2 hend
        · have hsp := hwsm (L - 1) (by omega) (by omega)
          rw [hgtL] at hsp
          exact absurd hsp (by decide)
  have hSopen : searchIdx (openTagL.isPrefixOf ·) s = some p := by
    apply searchIdx_some_of
    · omega
    · have h1 : occAt openTagL (content.take (p + 21)) p := by
        unfold occAt
        rw [List.drop_take, show p + 21 - p = 21 by omega]
        obtain ⟨t, ht⟩ := hp1
        rw [← ht, show (21 : Nat) = openTagL.length from rfl, List.take_left]
      exact occAt_iff_isPrefixOf.mp
        (by rw [hs]; exact occAt_append_left _ (occAt_append_left _ h1))
    · intro m hmp
      cases hbm : openTagL.isPrefixOf (s.drop m) with
      | false => rfl
      | true =>
        exfalso
        have hocc : occAt openTagL s m := occAt_iff_isPrefixOf.mpr hbm
        rw [hs] at hocc
        have h1 := occAt_restrict hocc
          (by rw [List.length_append, hHlen, hot, ← hL]; omega)
        have h2 := occAt_restrict h1 (by rw [hHlen, hot]; omega)
        have h3 := occAt_append_left (content.drop (p + 21)) h2
        rw [List.take_append_drop] at h3
        exact hp2 m hmp h3
  have hfinal : read_existing_html (complete_html content videos) =
      (s.take (p + 21), s.drop L) := by
    rw [hasm]
    unfold read_existing_html
    rw [hSopen, hSfull]
    rfl
  have htake : s.take (p + 21) = content.take (p + 21) := by
    have ht2 := List.take_left (content.take (p + 21))
      (content_html videos ++ (w ++ content.drop j0))
    rw [hHlen] at ht2
    rw [hs, List.append_assoc]
    exact ht2
  have hfooter : s.drop L = content.drop pre.length := by
    rw [hdropK]
    exact (footer_eq hsplit).symm
  rw [hfinal, htake, hfooter, hread]

-- ### C2: structural idempotence of repeated generation

/-- Counterexample to C2 as stated.  Two instances: (1) a document on
which the primary strategy succeeds but whose closing sequence lies
before the opening tag, with an empty record list; (2) a well-formed
document with one record whose url contains a closing sequence.  In both
cases splitting the assembled output does not reproduce the original
split. -/
theorem c2_not_idempotent_as_stated :
    read_existing_html
        (complete_html "</div></div></body><div class=\"content\">".data []) ≠
      read_existing_html "</div></div></body><div class=\"content\">".data ∧
    read_existing_html
        (complete_html "x<div class=\"content\">y</div></div></body>".data
          [{ title := "T".data, video_id := "i".data,
             url := "</div></div></body>".data,
             upload_date := [], description := [] }]) ≠
      read_existing_html "x<div class=\"content\">y</div></div></body>".data := by
  constructor <;> decide

/-- C2 (amended): repeated generation is structurally idempotent for
every document on which the splitter's primary strategy succeeds and
whose first closing-sequence match, including its leading whitespace,
begins at or after the end of the header, and for every list of video
records whose urls contain no `<` character: splitting the assembled
output yields exactly the same header and the same footer as splitting
the original document.  (The counterexample forces both restrictions:
without the boundary-order condition the closing match can sit inside
the preserved header, and a url containing a closing sequence creates an
earlier match inside the regenerated block.) -/
theorem c2_structural_idempotence (content : List Char) (videos : List VideoRecord)
    (p j0 : Nat) (pre w : List Char)
    (hp1 : occAt openTagL content p)
    (hp2 : ∀ q, q < p → ¬ occAt openTagL content q)
    (hj1 : EndSeqAt content j0)
    (hj2 : ∀ j, j < j0 → ¬ EndSeqAt content j)
    (hsplit : content.take j0 = pre ++ w)
    (hws : ∀ c ∈ w, isSpace c = true)
    (hpre : pre = [] ∨ isSpace (pre.getD (pre.length - 1) 'X') = false)
    (horder : p + openTagL.length ≤ pre.length)
    (hurl : ∀ v ∈ videos, '<' ∉ v.url) :
    read_existing_html (complete_html content videos) = read_existing_html content :=
  read_assembled_eq hp1 hp2 hj1 hj2 hsplit hws hpre horder hurl

/-- Witness for the amended C2 at a concrete well-formed document and a
record with an ordinary url. -/
theorem c2_structural_idempotence_witness :
    read_existing_html
        (complete_html "x<div class=\"content\">y</div></div></body>".data
          [mkVideoRecord "T".data "abc".data "20240101".data []]) =
      read_existing_html "x<div class=\"content\">y</div></div></body>".data := by
  apply c2_structural_idempotence
    "x<div class=\"content\">y</div></div></body>".data
    [mkVideoRecord "T".data "abc".data "20240101".data []] 1 23
    "x<div class=\"content\">y".data []
  · decide
  · decide
  · exact ⟨29, 35, by omega, by omega, by decide, by decide, by decide,
      by intro i h1 h2; omega, by intro i h1 h2; omega⟩
  · intro j hj hend
    have hall : ∀ j, j < 23 →
        matchEndB ("x<div class=\"content\">y</div></div></body>".data.drop j)
          = false := by decide
    have := matchEndB_iff.mpr hend
    rw [hall j hj] at this
    cases this
  · decide
  · simp
  · exact Or.inr (by decide)
  · decide
  · decide
